import Mathlib

/-!
# Verification of the course-content browser's data layer

This file gives a shallow embedding, in Lean 4, of the content model and the
operations of the `ContentData` store (`src/js/content-data.js`), of the
mind-map expansion state machine (`src/js/mindmap.js`), of the search result
highlighter (search module), and of the memoized loader, and proves the
testable properties stated in the specification against them.

Modelling conventions, used throughout:
* JavaScript strings are Lean `String`s; `toLowerCase` is modelled
  character-wise by `Char.toLower`.
* A field that the code reads through optional chaining (`?.`) and that can be
  absent in the JSON document is an `Option`; fields whose absence and
  emptiness are observationally identical in every use site of the code
  (`xs?.forEach`, `xs?.length || 0`, `xs?.slice`) are plain `List`s, with
  absence modelled by `[]`.
* JavaScript numbers occurring as part/chapter identifiers are `Nat`; the
  template-literal rendering `${'$'}{n}` is `Nat.repr`.
* `forEach` loops pushing onto a result array are modelled by list
  concatenation in push order.
-/

namespace OBA

/-- A concept of the course document: `{name, definition, examples}`.
`name` and `definition` are read with `?.` in `content-data.js`, so they are
`Option`s. -/
structure Concept where
  name : Option String
  definition : Option String
  examples : List String
deriving DecidableEq

mutual
/-- A section of a chapter: `{title, content, concepts, subsections}`
(`Section = {title, content, concepts: [...], subsections: [Section]}`).
The recursive `subsections` list is represented by the mutually inductive
`SectionList` so that traversals are structurally recursive (and hence
kernel-reducible); an absent `subsections`/`concepts` field behaves in the
code exactly like an empty one and is modelled by the empty list. -/
inductive Section : Type where
  | mk (title : Option String) (content : Option String)
       (concepts : List Concept) (subsections : SectionList)
deriving DecidableEq

/-- A list of `Section`s (isomorphic to `List Section`). -/
inductive SectionList : Type where
  | nil
  | cons (s : Section) (rest : SectionList)
deriving DecidableEq
end

/-- The section's `title` field. -/
def Section.title : Section → Option String
  | .mk t _ _ _ => t

/-- The section's `content` field. -/
def Section.content : Section → Option String
  | .mk _ c _ _ => c

/-- The section's `concepts` field. -/
def Section.concepts : Section → List Concept
  | .mk _ _ cs _ => cs

/-- The section's `subsections` field. -/
def Section.subsections : Section → SectionList
  | .mk _ _ _ ss => ss

/-- A chapter: `{chapter, title, overview, keyTakeaways, sections, totalPages}`.
`overview` is read with `?.`; `keyTakeaways` and `sections` are plain lists
(absence and emptiness coincide at every use site). -/
structure Chapter where
  chapter : Nat
  title : String
  overview : Option String
  keyTakeaways : List String
  sections : SectionList
  totalPages : Nat
deriving DecidableEq

/-- A part: `{part, title, color, chapters: [id...]}`. -/
structure Part where
  part : Nat
  title : String
  color : String
  chapters : List Nat
deriving DecidableEq

/-- The whole course document:
`{courseTitle, courseLevel, university, instructor, date, parts, chapters}`. -/
structure CourseData where
  courseTitle : String
  courseLevel : String
  university : String
  instructor : String
  date : String
  parts : List Part
  chapters : List Chapter

/-- The `type` tag of a search result. -/
inductive ResultType : Type where
  | chapter | overview | takeaway | section | content | concept
deriving DecidableEq

/-- A search result as pushed by `search`/`searchSections`:
`{type, chapter, title, match, context}`.  The JS field `match` is called
`matchLabel` here because `match` is a Lean keyword. -/
structure SearchResult where
  rtype : ResultType
  chapter : Nat
  title : String
  matchLabel : Option String
  context : Option String

/-- The `type` tag of a flattened mind-map node. -/
inductive FlatType : Type where
  | root | part | chapter | takeaway
deriving DecidableEq

/-- A node produced by `getFlattenedContent`.  Fields that only some node
kinds carry (`hierarchyLevel`, `parent`, `color`, `partNumber`,
`chapterNumber`, `data`) are `Option`s, absent fields being `none`. -/
structure FlatItem where
  id : String
  label : String
  type : FlatType
  level : Nat
  hierarchyLevel : Option Nat
  parent : Option String
  color : Option String
  partNumber : Option Nat
  chapterNumber : Option Nat
  data : Option Chapter
deriving DecidableEq

/-- The metadata object of `getMetadata`; the empty object returned on an
unloaded store is modelled as `none` at the use site. -/
structure CourseMetadata where
  title : String
  level : String
  university : String
  instructor : String
  date : String

/-! ## String helpers -/

/-- `s.toLowerCase()`: character-wise lowering. -/
def lowerStr (s : String) : String := ⟨s.data.map Char.toLower⟩

/-- One step of JavaScript's `t.includes(q)` (substring containment), as an
operational left-to-right scan: `q` occurs in `t` iff `q` is a prefix of some
suffix of `t`. -/
def includesAux (q : List Char) : List Char → Bool
  | [] => q.isPrefixOf []
  | c :: rest => q.isPrefixOf (c :: rest) || includesAux q rest

/-- `t.includes(q)` on strings. -/
def strIncludes (t q : String) : Bool := includesAux q.data t.data

/-- `field.toLowerCase().includes(lowerQuery)` where `lowerQuery` is the
already-lowered query, exactly as `search` computes it. -/
def matchesQ (field : String) (lq : String) : Bool := strIncludes (lowerStr field) lq

/-- The same test through an optional chain `field?.toLowerCase().includes(lq)`:
an absent field never matches. -/
def optMatches : Option String → String → Bool
  | none, _ => false
  | some s, lq => matchesQ s lq

/-- `lowerText.indexOf(query)`: index of the first occurrence, `none` for
JavaScript's `-1`. -/
def indexOfAux (q : List Char) : List Char → Option Nat
  | [] => if q.isPrefixOf [] then some 0 else none
  | c :: rest =>
    if q.isPrefixOf (c :: rest) then some 0
    else (indexOfAux q rest).map (· + 1)

/-- `getContextSnippet(text, query)` from `content-data.js`: an
ellipsis-bounded window around the first occurrence of the (lowercase) query
in the text. -/
def getContextSnippet (text : String) (query : String) : String :=
  match indexOfAux query.data (lowerStr text).data with
  | none => ⟨text.data.take 150⟩ ++ "..."
  | some index =>
    let start := index - 60
    let stop := min text.data.length (index + query.data.length + 90)
    let snippet : String := ⟨(text.data.take stop).drop start⟩
    let snippet := if 0 < start then "..." ++ snippet else snippet
    let snippet := if stop < text.data.length then snippet ++ "..." else snippet
    snippet

/-! ## ContentData accessors (`content-data.js`)

The store's `this.courseData` is the `Option CourseData` argument: `none`
while `load()` has not completed. -/

/-- `getParts()`: `this.courseData?.parts || []`. -/
def getParts (store : Option CourseData) : List Part :=
  (store.map CourseData.parts).getD []

/-- `getChapters()`: `this.courseData?.chapters || []`. -/
def getChapters (store : Option CourseData) : List Chapter :=
  (store.map CourseData.chapters).getD []

/-- `getChapter(chapterNum)`: first chapter with that number, `null` (`none`)
otherwise. -/
def getChapter (store : Option CourseData) (chapterNum : Nat) : Option Chapter :=
  match store with
  | none => none
  | some d => d.chapters.find? (fun ch => ch.chapter = chapterNum)

/-- `getPart(partNum)`: first part with that number, `null` (`none`)
otherwise. -/
def getPart (store : Option CourseData) (partNum : Nat) : Option Part :=
  match store with
  | none => none
  | some d => d.parts.find? (fun p => p.part = partNum)

/-- `getChaptersByPart(partNum)`: the part's chapter-id list resolved through
`getChapter`, dropping unresolved ids
(`part.chapters.map(chNum => this.getChapter(chNum)).filter(Boolean)`). -/
def getChaptersByPart (store : Option CourseData) (partNum : Nat) : List Chapter :=
  match getPart store partNum with
  | none => []
  | some p => p.chapters.filterMap (getChapter store)

mutual
/-- `searchSections(sections, chapter, query, results)`: the results pushed
for one section, in push order — section title match, section content match,
one result per concept whose name or definition matches, then the
subsections recursively.  The mutable `results` array of the code is modelled
by returning the pushed list. -/
def searchSection (chap : Chapter) (lq : String) : Section → List SearchResult
  | .mk title content concepts subsections =>
    (if optMatches title lq then
      [⟨.section, chap.chapter, chap.title, title, some ((content.getD ""))⟩]
     else []) ++
    (match content with
     | none => []
     | some c =>
       if matchesQ c lq then
         [⟨.content, chap.chapter, chap.title, title, some (getContextSnippet c lq)⟩]
       else []) ++
    (concepts.flatMap (fun concept =>
      if optMatches concept.name lq || optMatches concept.definition lq then
        [⟨.concept, chap.chapter, chap.title, concept.name, concept.definition⟩]
      else [])) ++
    searchSections chap lq subsections

/-- `searchSections` over a list of sections (the code guards the recursive
call with `subsections && subsections.length > 0`, which is observationally
the same as recursing into the empty list). -/
def searchSections (chap : Chapter) (lq : String) : SectionList → List SearchResult
  | .nil => []
  | .cons s rest => searchSection chap lq s ++ searchSections chap lq rest
end

/-- The results `search` pushes for one chapter, in push order: chapter
title match, overview match, one per matching key takeaway, then the section
tree. -/
def chapterResults (chap : Chapter) (lq : String) : List SearchResult :=
  (if matchesQ chap.title lq then
    [⟨.chapter, chap.chapter, chap.title, some chap.title, chap.overview⟩]
   else []) ++
  (match chap.overview with
   | none => []
   | some o =>
     if matchesQ o lq then
       [⟨.overview, chap.chapter, chap.title, some "Overview", some (getContextSnippet o lq)⟩]
     else []) ++
  (chap.keyTakeaways.enum.flatMap (fun p =>
    if matchesQ p.2 lq then
      [⟨.takeaway, chap.chapter, chap.title,
        some ("Key Takeaway #" ++ Nat.repr (p.1 + 1)), some p.2⟩]
    else [])) ++
  searchSections chap lq chap.sections

/-- `search(query)`.  `if (!query || !this.courseData) return []`: a `null`
(`none`) or empty query, or an unloaded store, yields no results; otherwise
every chapter is scanned with the lowered query. -/
def search (store : Option CourseData) (query : Option String) : List SearchResult :=
  match query, store with
  | some q, some d =>
    if q = "" then []
    else d.chapters.flatMap (fun chap => chapterResults chap (lowerStr q))
  | _, _ => []

mutual
/-- `countSectionConcepts(sections)` for one section:
`section.concepts?.length || 0` plus the subsections recursively. -/
def countSectionConceptsS : Section → Nat
  | .mk _ _ concepts subsections => concepts.length + countSectionConcepts subsections

/-- `countSectionConcepts(sections)` over a list of sections. -/
def countSectionConcepts : SectionList → Nat
  | .nil => 0
  | .cons s rest => countSectionConceptsS s + countSectionConcepts rest
end

/-- `getTotalConceptCount()`: key-takeaway counts plus recursive concept
counts, over every chapter; `0` on an unloaded store. -/
def getTotalConceptCount (store : Option CourseData) : Nat :=
  match store with
  | none => 0
  | some d =>
    (d.chapters.map (fun ch => ch.keyTakeaways.length + countSectionConcepts ch.sections)).sum

/-- `getMetadata()`: the five metadata fields; the empty object of the
unloaded store is `none`. -/
def getMetadata (store : Option CourseData) : Option CourseMetadata :=
  store.map (fun d => ⟨d.courseTitle, d.courseLevel, d.university, d.instructor, d.date⟩)

/-- The id string `part-${'$'}{part.part}`. -/
def partIdStr (p : Part) : String := "part-" ++ Nat.repr p.part

/-- The id string `chapter-${'$'}{chapter.chapter}`. -/
def chapterIdStr (ch : Chapter) : String := "chapter-" ++ Nat.repr ch.chapter

/-- The truncated takeaway label
`takeaway.substring(0, 60) + (takeaway.length > 60 ? '...' : '')`. -/
def takeawayLabel (t : String) : String :=
  ⟨t.data.take 60⟩ ++ (if 60 < t.data.length then "..." else "")

/-- The flat node pushed for a part. -/
def partItem (p : Part) : FlatItem :=
  ⟨partIdStr p, p.title, .part, 1, some 1, some "root", some p.color, some p.part, none, none⟩

/-- The flat node pushed for a chapter of a part. -/
def chapterItem (p : Part) (ch : Chapter) : FlatItem :=
  ⟨chapterIdStr ch, "Ch " ++ Nat.repr ch.chapter ++ ": " ++ ch.title, .chapter, 2, none,
    some (partIdStr p), some p.color, none, some ch.chapter, some ch⟩

/-- The flat nodes pushed for a chapter's key takeaways:
`keyTakeaways?.slice(0, 5).forEach((takeaway, index) => ...)`. -/
def takeawayItems (p : Part) (ch : Chapter) : List FlatItem :=
  (ch.keyTakeaways.take 5).enum.map (fun q =>
    ⟨chapterIdStr ch ++ "-takeaway-" ++ Nat.repr q.1, takeawayLabel q.2, .takeaway, 3, none,
      some (chapterIdStr ch), some p.color, none, none, none⟩)

/-- `getFlattenedContent()`: the root node, then for each part the part node
followed by, for each chapter of `getChaptersByPart(part.part)`, the chapter
node and its (at most five) takeaway nodes — all in push order.  Unlike the
read accessors this method dereferences `this.courseData` without a null
guard, so it takes the loaded document directly. -/
def getFlattenedContent (d : CourseData) : List FlatItem :=
  ⟨"root", d.courseTitle, .root, 0, some 0, none, none, none, none, none⟩ ::
    d.parts.flatMap (fun p =>
      partItem p ::
        (getChaptersByPart (some d) p.part).flatMap (fun ch =>
          chapterItem p ch :: takeawayItems p ch))

/-! ## Mind-map expansion state (`mindmap.js`, D3 force variant)

The mind map holds `this.allItems = courseData.getFlattenedContent()` and a
set `this.expandedNodes` of expanded node ids, initialized to `{'root'}`.
`updateGraphData` renders an item iff it is the root or its parent id is in
the expanded set. -/

/-- `this.expandedNodes = new Set(['root'])` (constructor). -/
def initialExpanded : Finset String := {"root"}

/-- The ids of an item's children:
`allItems.filter(item => item.parent === id)`. -/
def childrenOf (items : List FlatItem) (id : String) : List String :=
  (items.filter (fun it => it.parent == some id)).map FlatItem.id

/-- `allItems.some(child => child.parent === item.id)` (the `hasChildren`
flag of `updateGraphData`). -/
def hasChildren (items : List FlatItem) (id : String) : Bool :=
  items.any (fun it => it.parent == some id)

/-- The visible items of `updateGraphData`:
`allItems.filter(item => item.id === 'root' || expandedNodes.has(item.parent))`. -/
def visibleItems (items : List FlatItem) (expanded : Finset String) : List FlatItem :=
  items.filter (fun it =>
    it.id == "root" || (match it.parent with
                        | some p => decide (p ∈ expanded)
                        | none => false))

/-- The recursive `removeDescendants` helper of `collapseNode`: delete the id
from the expanded set, then recurse into each child.  The JavaScript
recursion carries no fuel; the `fuel` argument only bounds the recursion
depth so that the definition is total (and is chosen large enough that it is
never exhausted on the tree-shaped data the code runs on). -/
def removeDescendants (items : List FlatItem) : Nat → String → Finset String → Finset String
  | 0, _, expanded => expanded
  | fuel + 1, id, expanded =>
    (childrenOf items id).foldl
      (fun acc child => removeDescendants items fuel child acc) (expanded.erase id)

/-- `collapseNode(nodeId)` restricted to its effect on `expandedNodes`
(rendering is derived from the set by `updateGraphData`). -/
def collapseNode (items : List FlatItem) (expanded : Finset String) (id : String) :
    Finset String :=
  removeDescendants items (items.length + 1) id expanded

/-- `expandNode(nodeId)` restricted to its effect on `expandedNodes`. -/
def expandNode (expanded : Finset String) (id : String) : Finset String :=
  insert id expanded

/-- `handleNodeClick` restricted to its effect on `expandedNodes`: a node
with children toggles (collapse if expanded, expand otherwise); a leaf click
only emits a content event and leaves the set unchanged. -/
def handleNodeClick (items : List FlatItem) (expanded : Finset String) (id : String) :
    Finset String :=
  if hasChildren items id then
    if id ∈ expanded then collapseNode items expanded id
    else expandNode expanded id
  else expanded

/-- The user operations that can touch the expanded set. -/
inductive MapOp : Type where
  | click (id : String)
  | expand (id : String)
  | collapse (id : String)

/-- One operation applied to the expanded set. -/
def mapStep (items : List FlatItem) (expanded : Finset String) : MapOp → Finset String
  | .click id => handleNodeClick items expanded id
  | .expand id => expandNode expanded id
  | .collapse id => collapseNode items expanded id

/-- A sequence of operations applied from a starting state. -/
def mapRun (items : List FlatItem) (expanded : Finset String) (ops : List MapOp) :
    Finset String :=
  ops.foldl (mapStep items) expanded

/-- An operation that never collapses the root node: any expand, and clicks
or collapses aimed at other nodes (a click on the root collapses it whenever
the root is expanded). -/
def MapOp.safeForRoot : MapOp → Prop
  | .click id => id ≠ "root"
  | .expand _ => True
  | .collapse id => id ≠ "root"

/-- The ids reachable from `id` by following child edges for at most `n`
steps (including `id` itself).  For `n ≥` the number of items this is the
full set of transitive descendants, since any reachable id is reachable by a
repetition-free chain. -/
def descWithin (items : List FlatItem) : Nat → String → Finset String
  | 0, id => {id}
  | n + 1, id =>
    insert id ((childrenOf items id).foldl (fun acc c => acc ∪ descWithin items n c) ∅)

/-! ## The memoized loader (`load()`)

`load()` manipulates two fields: `this.courseData` (the parsed document, set
by the promise chain on success) and `this.loadingPromise` (the memoized
in-flight promise, never cleared).  Promises are identified by a `Nat` id;
the transport-plus-parse outcome that eventually settles the single fetch is
an `Except LoadError α`.  The model is parametric in the document type `α`. -/

/-- A fatal load failure (non-OK transport response or parse error). -/
inductive LoadError : Type where
  | httpError (status : Nat)
  | parseError

/-- The two memoization fields of the store. -/
structure LoadState (α : Type) where
  courseData : Option α
  loadingPromise : Option Nat

/-- The constructor state: no data, no in-flight promise. -/
def initLoadState (α : Type) : LoadState α := ⟨none, none⟩

/-- What one `load()` call hands back to its caller: the already-loaded data
(wrapped in a resolved promise by `async`), or a promise id. -/
inductive LoadRet (α : Type) where
  | value (d : α)
  | promise (pid : Nat)
deriving DecidableEq

/-- One `load()` call.  `fresh` is the id of the promise a new fetch would
create; the returned `Bool` records whether this call issued a fetch.
Mirrors the source: return `courseData` if set, else the memoized
`loadingPromise` if set, else start the single fetch and memoize its
promise. -/
def load {α : Type} (s : LoadState α) (fresh : Nat) : LoadRet α × LoadState α × Bool :=
  match s.courseData with
  | some d => (.value d, s, false)
  | none =>
    match s.loadingPromise with
    | some pid => (.promise pid, s, false)
    | none => (.promise fresh, ⟨none, some fresh⟩, true)

/-- The in-flight promise settling with the fetch outcome: on success the
`.then` handler stores the data; on failure the `.catch` handler rethrows and
neither field changes — in particular `loadingPromise` keeps holding the
rejected promise, so no later call can retry.  Settling is a no-op when no
promise is in flight. -/
def settle {α : Type} (s : LoadState α) (outcome : Except LoadError α) : LoadState α :=
  match s.loadingPromise with
  | none => s
  | some _ =>
    match outcome with
    | .ok d => { s with courseData := some d }
    | .error _ => s

/-- An event of the loader's life: a `load()` call (with the id its fetch
would mint) or the settling of the in-flight promise. -/
inductive LoadEvent (α : Type) where
  | call (fresh : Nat)
  | settleWith (outcome : Except LoadError α)

/-- One event applied to the state, counting issued fetches. -/
def loadStep {α : Type} (sc : LoadState α × Nat) (e : LoadEvent α) : LoadState α × Nat :=
  match e with
  | .call fresh =>
    let (_, s', fetched) := load sc.1 fresh
    (s', sc.2 + (if fetched then 1 else 0))
  | .settleWith outcome => (settle sc.1 outcome, sc.2)

/-- A trace of loader events from the constructor state, returning the final
state and the total number of fetches issued. -/
def loadRun {α : Type} (events : List (LoadEvent α)) : LoadState α × Nat :=
  events.foldl loadStep (initLoadState α, 0)

/-! ## Heap model of the section traversals (cycle behaviour)

JavaScript objects are references, so a malformed (non-JSON) object graph
could make a section its own transitive subsection.  To reason about what the
*source* recursions do on such a graph, sections are stored in a heap and
`subsections` holds heap indices; the traversals are run under a fuel that
bounds the call depth.  Exhausting every fuel means the recursion never
returns. -/

/-- A section whose subsections are heap references. -/
structure HSection where
  title : Option String
  content : Option String
  concepts : List Concept
  subsections : List Nat

/-- `searchSections` read off the heap, fuel-bounded: `none` means the call
depth exceeded the fuel.  The body mirrors `searchSections` literally; there
is no visited set and no cycle check. -/
def searchSectionsH (heap : List HSection) (chap : Chapter) (lq : String) :
    Nat → List Nat → Option (List SearchResult)
  | 0, _ => none
  | _ + 1, [] => some []
  | fuel + 1, i :: rest => do
    let s ← heap[i]?
    let own :=
      (if optMatches s.title lq then
        [⟨.section, chap.chapter, chap.title, s.title, some (s.content.getD "")⟩]
       else []) ++
      (match s.content with
       | none => []
       | some c =>
         if matchesQ c lq then
           [⟨.content, chap.chapter, chap.title, s.title, some (getContextSnippet c lq)⟩]
         else []) ++
      (s.concepts.flatMap (fun concept =>
        if optMatches concept.name lq || optMatches concept.definition lq then
          [⟨.concept, chap.chapter, chap.title, concept.name, concept.definition⟩]
        else []))
    let sub ← searchSectionsH heap chap lq fuel s.subsections
    let tail ← searchSectionsH heap chap lq fuel rest
    some (own ++ sub ++ tail)

/-- `countSectionConcepts` read off the heap, fuel-bounded; again a literal
transcription with no visited set. -/
def countSectionConceptsH (heap : List HSection) :
    Nat → List Nat → Option Nat
  | 0, _ => none
  | _ + 1, [] => some 0
  | fuel + 1, i :: rest => do
    let s ← heap[i]?
    let sub ← countSectionConceptsH heap fuel s.subsections
    let tail ← countSectionConceptsH heap fuel rest
    some (s.concepts.length + sub + tail)

/-- The one-node cyclic heap: a single section that lists itself as its own
subsection. -/
def cyclicHeap : List HSection := [⟨some "loop", none, [], [0]⟩]

/-! ## The search-result highlighter (search module)

`escapeHtml` escapes text through a detached DOM node
(`div.textContent = text; return div.innerHTML`), which replaces the three
text-node metacharacters `&`, `<`, `>` by their entities.  `highlightQuery`
escapes both the text and the query and then runs
`escapedText.replace(new RegExp('(' + escapedQuery + ')', 'gi'), '<mark>$1</mark>')`:
a global, case-insensitive, left-to-right, non-overlapping replacement that
wraps each matched span (kept verbatim via `$1`) in `<mark>` tags.

`escapeHtml` escapes only `&`, `<`, `>`, so any regular-expression
metacharacter in the query reaches the `RegExp` constructor unescaped.  The
constructed pattern then matches the escaped query *literally* exactly when
the escaped query contains no such metacharacter; otherwise the pattern is
interpreted as a regular expression, which matches a different language than
the query (`.` matches every character) or makes the constructor throw a
SyntaxError on an invalid pattern (`(` yields the pattern `(()`, `c++`
yields `(c++)`).  The model therefore splits on that condition: on the
literal domain the replacement is the case-insensitive scanner below, and on
the metacharacter domain it assigns no output (`none`) — no literal-matching
or round-trip behaviour is claimed there. -/

/-- The DOM text-node escape of one character. -/
def escapeChar (c : Char) : List Char :=
  if c = '&' then "&amp;".data
  else if c = '<' then "&lt;".data
  else if c = '>' then "&gt;".data
  else [c]

/-- `escapeHtml(text)`. -/
def escapeHtml (s : String) : String := ⟨s.data.flatMap escapeChar⟩

/-- Lower a character list (case-insensitive comparison). -/
def lowerL (l : List Char) : List Char := l.map Char.toLower

/-- The characters that are special in a JavaScript regular-expression
pattern built with the `RegExp` constructor.  (`\x7b` and `\x7d` are the
curly braces.) -/
def regexMetachar (c : Char) : Bool :=
  ['\\', '^', '$', '.', '*', '+', '?', '(', ')', '[', ']', '\x7b', '\x7d', '|'].contains c

/-- The replacement that `escapedText.replace(regex, '<mark>$1</mark>')`
performs when the pattern matches the escaped query literally (no
metacharacter in it): a global case-insensitive scan, left to right,
wrapping each leftmost non-overlapping match.  `fuel` is the number of scan
steps (the input length suffices, as every step consumes at least one
character).  `highlightQuery` applies it only on the literal domain. -/
def highlightAux (q : List Char) : Nat → List Char → List Char
  | 0, t => t
  | _ + 1, [] => []
  | fuel + 1, c :: rest =>
    if (lowerL q).isPrefixOf (lowerL (c :: rest)) then
      "<mark>".data ++ (c :: rest).take q.length ++ "</mark>".data ++
        highlightAux q fuel ((c :: rest).drop q.length)
    else c :: highlightAux q fuel rest

/-- `highlightQuery(text, query)`: `if (!text || !query) return escapeHtml(text)`
(this guard runs before any `RegExp` is built); else escape both, and — when
the escaped query contains no regular-expression metacharacter, so that the
constructed pattern matches it literally — wrap every leftmost
non-overlapping case-insensitive occurrence of the escaped query in the
escaped text.  When the escaped query does contain a metacharacter the
source interprets the pattern as a regular expression (wrapping a different
language, or throwing on an invalid pattern); the model assigns those
queries no output rather than the literal semantics. -/
def highlightQuery (text query : String) : Option String :=
  if text = "" ∨ query = "" then some (escapeHtml text)
  else
    let escapedText := escapeHtml text
    let escapedQuery := escapeHtml query
    if escapedQuery.data.any regexMetachar then none
    else some ⟨highlightAux escapedQuery.data escapedText.data.length escapedText.data⟩

/-- Modelled from the spec: stripping the injected `<mark>`/`</mark>` tags
from highlighter output. -/
def stripMarks : List Char → List Char
  | [] => []
  | c :: rest =>
    if "<mark>".data.isPrefixOf (c :: rest) then stripMarks ((c :: rest).drop 6)
    else if "</mark>".data.isPrefixOf (c :: rest) then stripMarks ((c :: rest).drop 7)
    else c :: stripMarks rest
termination_by l => l.length
decreasing_by
  · simp [List.length_drop]; omega
  · simp [List.length_drop]; omega
  · simp

/-- Modelled from the spec: decoding the three HTML escapes that
`escapeHtml` can produce. -/
def unescapeHtml : List Char → List Char
  | [] => []
  | c :: rest =>
    if "&amp;".data.isPrefixOf (c :: rest) then '&' :: unescapeHtml ((c :: rest).drop 5)
    else if "&lt;".data.isPrefixOf (c :: rest) then '<' :: unescapeHtml ((c :: rest).drop 4)
    else if "&gt;".data.isPrefixOf (c :: rest) then '>' :: unescapeHtml ((c :: rest).drop 4)
    else c :: unescapeHtml rest
termination_by l => l.length
decreasing_by
  · simp [List.length_drop]; omega
  · simp [List.length_drop]; omega
  · simp [List.length_drop]; omega
  · simp

/-- The number of (possibly overlapping) occurrences of `pat` in `t`: the
number of positions at which `pat` is a prefix of the corresponding
suffix. -/
def countOccurrences (pat t : List Char) : Nat :=
  ((List.range (t.length + 1)).filter (fun i => pat.isPrefixOf (t.drop i))).length

/-! ## Specification-side definitions

These definitions follow the wording of the specification (not the source);
the theorems below compare them with the source-derived definitions. -/

/-- Modelled from the spec: a valid course document.  Every chapter id is
referenced by exactly one Part (exactly one occurrence across the parts'
chapter-id lists), together with the data-model invariants that part ids and
chapter ids are unique. -/
def ValidCourse (d : CourseData) : Prop :=
  (d.parts.map Part.part).Nodup ∧
  (d.chapters.map Chapter.chapter).Nodup ∧
  ∀ ch ∈ d.chapters, (d.parts.flatMap Part.chapters).count ch.chapter = 1

/-- Modelled from the spec: the case-insensitive substring test — the
lowered query occurs inside the lowered field text. -/
def specMatch (field : String) (query : String) : Bool :=
  decide ((lowerStr query).data <:+: (lowerStr field).data)

/-- `specMatch` through an optional field. -/
def optSpecMatch : Option String → String → Bool
  | none, _ => false
  | some s, q => specMatch s q

mutual
/-- Modelled from the spec, as amended: the number of search results a
section tree contributes — one per matching section title, one per matching
section body, and one per concept whose name or definition matches (a
concept contributes at most one result even when both fields match). -/
def specSectionCount (q : String) : Section → Nat
  | .mk title content concepts subsections =>
    (if optSpecMatch title q then 1 else 0) +
    (if optSpecMatch content q then 1 else 0) +
    concepts.countP (fun c => optSpecMatch c.name q || optSpecMatch c.definition q) +
    specSectionsCount q subsections

/-- `specSectionCount` over a section list. -/
def specSectionsCount (q : String) : SectionList → Nat
  | .nil => 0
  | .cons s rest => specSectionCount q s + specSectionsCount q rest
end

/-- Modelled from the spec, as amended: the number of search results one
chapter contributes. -/
def specChapterCount (q : String) (ch : Chapter) : Nat :=
  (if specMatch ch.title q then 1 else 0) +
  (if optSpecMatch ch.overview q then 1 else 0) +
  ch.keyTakeaways.countP (fun t => specMatch t q) +
  specSectionsCount q ch.sections

/-- Modelled from the spec, as amended: the total number of search results
for a non-empty query. -/
def specResultCount (d : CourseData) (q : String) : Nat :=
  (d.chapters.map (specChapterCount q)).sum

mutual
/-- Modelled from the spec, as stated by the claim: like `specSectionCount`,
but a concept contributes one result per matching field — one for a matching
name and one for a matching definition. -/
def claimSectionCount (q : String) : Section → Nat
  | .mk title content concepts subsections =>
    (if optSpecMatch title q then 1 else 0) +
    (if optSpecMatch content q then 1 else 0) +
    (concepts.map (fun c =>
      (if optSpecMatch c.name q then 1 else 0) +
      (if optSpecMatch c.definition q then 1 else 0))).sum +
    claimSectionsCount q subsections

/-- `claimSectionCount` over a section list. -/
def claimSectionsCount (q : String) : SectionList → Nat
  | .nil => 0
  | .cons s rest => claimSectionCount q s + claimSectionsCount q rest
end

/-- Modelled from the spec, as stated by the claim: per-chapter result count
with one result per matching concept field. -/
def claimChapterCount (q : String) (ch : Chapter) : Nat :=
  (if specMatch ch.title q then 1 else 0) +
  (if optSpecMatch ch.overview q then 1 else 0) +
  ch.keyTakeaways.countP (fun t => specMatch t q) +
  claimSectionsCount q ch.sections

/-- Modelled from the spec, as stated by the claim: total result count with
one result per matching concept field. -/
def claimResultCount (d : CourseData) (q : String) : Nat :=
  (d.chapters.map (claimChapterCount q)).sum

/-! ## Concrete documents used by counterexamples and witnesses -/

/-- Chapter 1 of the worked example: three key takeaways, no sections. -/
def exampleChapter1 : Chapter :=
  ⟨1, "Foundations", none, ["first takeaway", "second takeaway", "third takeaway"], .nil, 20⟩

/-- Chapter 2 of the worked example: no sections, no takeaways. -/
def exampleChapter2 : Chapter := ⟨2, "Motivation", none, [], .nil, 15⟩

/-- The worked example document of the specification: Part 1 containing
Chapter 1 (three key takeaways) and Chapter 2 (no sections, no takeaways).
The raw chapter list is deliberately in the opposite order of the part's
declared chapter order. -/
def exampleDoc : CourseData :=
  ⟨"Organizational Behavior", "Graduate", "University", "Instructor", "2024",
    [⟨1, "Part One", "#3498db", [1, 2]⟩],
    [exampleChapter2, exampleChapter1]⟩

/-- The flattened node list of the worked example. -/
def exampleItems : List FlatItem := getFlattenedContent exampleDoc

/-- The flat node of Chapter 1 in the worked example. -/
def exampleChapterNode : FlatItem :=
  chapterItem ⟨1, "Part One", "#3498db", [1, 2]⟩ exampleChapter1

/-- A document whose single chapter holds one concept whose name and
definition both contain the query `"x"`. -/
def conceptDoc : CourseData :=
  ⟨"T", "L", "U", "I", "D",
    [⟨1, "P", "#fff", [1]⟩],
    [⟨1, "Alpha", none, [],
      .cons (.mk (some "S") none [⟨some "x ray", some "an x ray", []⟩] .nil) .nil, 1⟩]⟩

/-- A chapter value used when running the heap traversal (its fields are
irrelevant to the divergence argument). -/
def heapChapter : Chapter := ⟨1, "H", none, [], .nil, 0⟩

/-! ## Proof-side decimal rendering

Used only to prove that `Nat.repr` (the rendering behind the id template
strings) is injective. -/

/-- The decimal digits of `n`, most significant first. -/
def decDigits (n : Nat) : List Char :=
  if h : n < 10 then [Nat.digitChar n]
  else decDigits (n / 10) ++ [Nat.digitChar (n % 10)]
decreasing_by exact Nat.div_lt_self (by omega) (by omega)

/-- The numeric value of a decimal digit character. -/
def digitVal (c : Char) : Nat := c.toNat - 48

/-- The numeric value of a digit list, most significant first. -/
def digitsVal (l : List Char) : Nat := l.foldl (fun acc c => acc * 10 + digitVal c) 0

/-! # Theorems -/

/-! ## General list lemmas -/

theorem countP_flatMap {α β : Type} (l : List α) (f : α → List β) (p : β → Bool) :
    (l.flatMap f).countP p = (l.map (fun a => (f a).countP p)).sum := by
  induction l with
  | nil => rfl
  | cons a l ih => simp [List.countP_append, ih]

theorem length_flatMap_eq_sum {α β : Type} (l : List α) (f : α → List β) :
    (l.flatMap f).length = (l.map (fun a => (f a).length)).sum := by
  induction l with
  | nil => rfl
  | cons a l ih => simp [ih]

theorem length_filterMap_eq_countP {α β : Type} (l : List α) (f : α → Option β) :
    (l.filterMap f).length = l.countP (fun a => (f a).isSome) := by
  induction l with
  | nil => rfl
  | cons a l ih => cases h : f a <;> simp [List.filterMap_cons, h, List.countP_cons, ih]

theorem countP_filterMap_eq {α β : Type} (l : List α) (f : α → Option β) (p : β → Bool) :
    (l.filterMap f).countP p =
      l.countP (fun a => match f a with | some b => p b | none => false) := by
  induction l with
  | nil => rfl
  | cons a l ih => cases h : f a <;> simp [List.filterMap_cons, h, List.countP_cons, ih]

theorem countP_or_disjoint {α : Type} (l : List α) (p q : α → Bool)
    (h : ∀ a, ¬(p a = true ∧ q a = true)) :
    l.countP (fun a => p a || q a) = l.countP p + l.countP q := by
  induction l with
  | nil => rfl
  | cons a l ih =>
    by_cases hp : p a = true <;> by_cases hq : q a = true
    · exact absurd ⟨hp, hq⟩ (h a)
    · simp [List.countP_cons, hp, hq, ih]; omega
    · simp [List.countP_cons, hp, hq, ih]; omega
    · simp [List.countP_cons, hp, hq, ih]

theorem countP_mem_eq_sum_count {α : Type} [DecidableEq α] (l : List α) :
    ∀ ids : List α, ids.Nodup →
      l.countP (fun a => decide (a ∈ ids)) = (ids.map (fun c => l.count c)).sum := by
  intro ids
  induction ids with
  | nil => intro _; simp
  | cons c ids ih =>
    intro hnd
    have hc : c ∉ ids := (List.nodup_cons.mp hnd).1
    have step : l.countP (fun a => decide (a ∈ c :: ids)) =
        l.countP (fun a => (a == c) || decide (a ∈ ids)) := by
      apply List.countP_congr
      intro a _
      by_cases hac : a = c <;> simp [hac]
    rw [step, countP_or_disjoint _ _ _ (by
      intro a ⟨h1, h2⟩
      have : a = c := by simpa using h1
      exact hc (this ▸ (by simpa using h2)))]
    simp [List.count, ih (List.nodup_cons.mp hnd).2]

theorem find?_of_nodup_map {α β : Type} [DecidableEq β] (f : α → β) (a : α) :
    ∀ l : List α, (l.map f).Nodup → a ∈ l →
      l.find? (fun x => decide (f x = f a)) = some a := by
  intro l
  induction l with
  | nil => intro _ ha; cases ha
  | cons b l ih =>
    intro hnd ha
    rw [List.map_cons, List.nodup_cons] at hnd
    rcases List.mem_cons.mp ha with rfl | ha'
    · simp [List.find?_cons]
    · have hne : ¬(f b = f a) := fun h => hnd.1 (h ▸ List.mem_map_of_mem f ha')
      simp [List.find?_cons, hne, ih hnd.2 ha']

theorem foldl_const {α β : Type} (l : List α) (init : β) :
    l.foldl (fun acc _ => acc) init = init := by
  induction l generalizing init with
  | nil => rfl
  | cons a l ih => simp [List.foldl_cons, ih]

/-! ## Injectivity of the decimal rendering -/

theorem digitVal_digitChar : ∀ d < 10, digitVal (Nat.digitChar d) = d := by decide

theorem digitsVal_append_singleton (l : List Char) (c : Char) :
    digitsVal (l ++ [c]) = digitsVal l * 10 + digitVal c := by
  simp [digitsVal, List.foldl_append]

theorem digitsVal_decDigits (n : Nat) : digitsVal (decDigits n) = n := by
  induction n using Nat.strong_induction_on with
  | _ n ih =>
    rw [decDigits]
    by_cases h : n < 10
    · simp only [h, dif_pos, digitsVal, List.foldl_cons, List.foldl_nil]
      have := digitVal_digitChar n h
      omega
    · simp only [h, dif_neg, not_false_iff, digitsVal_append_singleton]
      have h1 : n / 10 < n := Nat.div_lt_self (by omega) (by omega)
      rw [ih _ h1]
      have h2 := digitVal_digitChar (n % 10) (Nat.mod_lt _ (by omega))
      omega

theorem decDigits_injective {a b : Nat} (h : decDigits a = decDigits b) : a = b := by
  have := congrArg digitsVal h
  simpa [digitsVal_decDigits] using this

theorem toDigitsCore_eq_decDigits :
    ∀ (n fuel : Nat) (ds : List Char), n < fuel →
      Nat.toDigitsCore 10 fuel n ds = decDigits n ++ ds := by
  intro n
  induction n using Nat.strong_induction_on with
  | _ n ih =>
    intro fuel ds hlt
    match fuel with
    | f + 1 =>
      rw [Nat.toDigitsCore]
      by_cases h0 : n / 10 = 0
      · have hn : n < 10 := by omega
        rw [decDigits]
        simp [h0, hn, Nat.mod_eq_of_lt hn]
      · have hdiv : n / 10 < n := Nat.div_lt_self (by omega) (by omega)
        have hf : n / 10 < f := by omega
        simp only [h0, if_neg, not_false_iff]
        rw [ih _ hdiv f _ hf]
        conv_rhs => rw [decDigits]
        have hn : ¬ n < 10 := by omega
        simp [hn, List.append_assoc]

theorem repr_injective {a b : Nat} (h : Nat.repr a = Nat.repr b) : a = b := by
  have hd := congrArg String.data h
  simp only [Nat.repr, Nat.toDigits, List.asString] at hd
  rw [toDigitsCore_eq_decDigits a (a + 1) [] (Nat.lt_succ_self a),
      toDigitsCore_eq_decDigits b (b + 1) [] (Nat.lt_succ_self b)] at hd
  exact decDigits_injective (by simpa using hd)

/-! ## Id string lemmas -/

theorem str_ne_of_data_head {a b : String} (ca cb : Char) {la lb : List Char}
    (ha : a.data = ca :: la) (hb : b.data = cb :: lb) (hne : ca ≠ cb) : a ≠ b := by
  intro h
  rw [h, hb] at ha
  cases ha
  exact hne rfl

theorem string_ext {a b : String} (h : a.data = b.data) : a = b :=
  congrArg String.mk h

theorem partIdStr_ne_root (p : Part) : partIdStr p ≠ "root" :=
  str_ne_of_data_head 'p' 'r' rfl rfl (by decide)

theorem chapterIdStr_ne_partIdStr (ch : Chapter) (p : Part) :
    chapterIdStr ch ≠ partIdStr p :=
  str_ne_of_data_head 'c' 'p' rfl rfl (by decide)

theorem takeawayId_ne_chapterIdStr (ch : Chapter) (r : String) :
    chapterIdStr ch ++ "-takeaway-" ++ r ≠ chapterIdStr ch := by
  intro h
  have hlen := congrArg String.length h
  rw [String.length_append, String.length_append] at hlen
  have h10 : ("-takeaway-" : String).length = 10 := rfl
  rw [h10] at hlen
  omega

theorem chapterIdStr_inj {ch1 ch2 : Chapter} (h : chapterIdStr ch1 = chapterIdStr ch2) :
    ch1.chapter = ch2.chapter := by
  have hd := congrArg String.data h
  simp only [chapterIdStr, String.data_append] at hd
  have : (Nat.repr ch1.chapter).data = (Nat.repr ch2.chapter).data :=
    List.append_cancel_left hd
  exact repr_injective (string_ext this)

/-! ## Substring matching -/

theorem includesAux_iff_infix (q : List Char) :
    ∀ t : List Char, includesAux q t = true ↔ q <:+: t := by
  intro t
  induction t with
  | nil => simp [includesAux, List.isPrefixOf_iff_prefix]
  | cons c rest ih =>
    simp [includesAux, List.isPrefixOf_iff_prefix, ih, List.infix_cons_iff]

/-- C8: `search("")` and `search(null)` both return the empty sequence, and
the field test used by `search` — `field.toLowerCase().includes(lowerQuery)`
with `lowerQuery = query.toLowerCase()` — succeeds exactly when the lowered
query occurs as a substring (at any position) of the lowered field text. -/
theorem c8_search_empty_and_substring :
    (∀ store : Option CourseData, search store none = []) ∧
    (∀ store : Option CourseData, search store (some "") = []) ∧
    (∀ field query : String,
      matchesQ field (lowerStr query) = true ↔
        (lowerStr query).data <:+: (lowerStr field).data) := by
  refine ⟨fun store => rfl, fun store => ?_, fun field query => ?_⟩
  · cases store <;> rfl
  · exact includesAux_iff_infix _ _

/-- C10: before `load()` has completed (`this.courseData === null`), every
read accessor of the store returns a harmless empty or absent value for
every argument, and (being total functions of the model) none of them can
throw. -/
theorem c10_accessors_null_safe :
    getParts none = [] ∧
    getChapters none = [] ∧
    (∀ n, getChapter none n = none) ∧
    (∀ n, getPart none n = none) ∧
    (∀ n, getChaptersByPart none n = []) ∧
    (∀ q, search none q = []) ∧
    getTotalConceptCount none = 0 ∧
    getMetadata none = none := by
  refine ⟨rfl, rfl, fun n => rfl, fun n => rfl, fun n => rfl, fun q => ?_, rfl, rfl⟩
  cases q <;> rfl

/-! ## C9: order of the flattened sequence -/

theorem takeawayItems_ids (p : Part) (ch : Chapter) :
    (takeawayItems p ch).map FlatItem.id =
      (List.range (min 5 ch.keyTakeaways.length)).map
        (fun i => chapterIdStr ch ++ "-takeaway-" ++ Nat.repr i) := by
  have h1 : (ch.keyTakeaways.take 5).enum.map Prod.fst =
      List.range (min 5 ch.keyTakeaways.length) := by
    rw [List.enum_map_fst, List.length_take, inf_eq_min]
  calc (takeawayItems p ch).map FlatItem.id
      = (ch.keyTakeaways.take 5).enum.map
          ((fun i => chapterIdStr ch ++ "-takeaway-" ++ Nat.repr i) ∘ Prod.fst) := by
        simp [takeawayItems, List.map_map]
    _ = ((ch.keyTakeaways.take 5).enum.map Prod.fst).map
          (fun i => chapterIdStr ch ++ "-takeaway-" ++ Nat.repr i) := by
        rw [List.map_map]
    _ = _ := by rw [h1]

/-- C9: `getFlattenedContent` is a deterministic depth-first walk.  The id
sequence is the root, then for each part (in declared order) the part id
followed by its chapters in the part's declared chapter-id order, each
chapter immediately followed by its at-most-five takeaway ids; and on the
worked example (whose raw chapter list is in the opposite order of the
part's declared order) the sequence is exactly the one the specification
lists.  Repeated calls on unchanged data are identical because the embedding
is a pure function of the document. -/
theorem c9_flatten_order :
    (∀ d : CourseData,
      (getFlattenedContent d).map FlatItem.id =
        "root" :: d.parts.flatMap (fun p =>
          partIdStr p :: (getChaptersByPart (some d) p.part).flatMap (fun ch =>
            chapterIdStr ch :: (List.range (min 5 ch.keyTakeaways.length)).map
              (fun i => chapterIdStr ch ++ "-takeaway-" ++ Nat.repr i)))) ∧
    (getFlattenedContent exampleDoc).map FlatItem.id =
      ["root", "part-1", "chapter-1", "chapter-1-takeaway-0", "chapter-1-takeaway-1",
       "chapter-1-takeaway-2", "chapter-2"] := by
  constructor
  · intro d
    simp [getFlattenedContent, List.map_flatMap, takeawayItems_ids, partItem, chapterItem]
  · decide

/-! ## C4: the memoized loader -/

theorem loadRun_invariant {α : Type} :
    ∀ (events : List (LoadEvent α)) (sc : LoadState α × Nat),
      ((sc.2 = 0 ∧ sc.1 = initLoadState α) ∨ (sc.2 = 1 ∧ sc.1.loadingPromise.isSome)) →
      ((events.foldl loadStep sc).2 = 0 ∧ (events.foldl loadStep sc).1 = initLoadState α) ∨
        ((events.foldl loadStep sc).2 = 1 ∧
          (events.foldl loadStep sc).1.loadingPromise.isSome) := by
  intro events
  induction events with
  | nil => intro sc h; exact h
  | cons e events ih =>
    intro sc h
    apply ih
    rcases h with ⟨hc, hs⟩ | ⟨hc, hs⟩
    · cases e with
      | call fresh =>
        right
        simp [loadStep, hs, hc, initLoadState, load]
      | settleWith outcome =>
        left
        simp [loadStep, hs, hc, initLoadState, settle]
    · cases e with
      | call fresh =>
        right
        obtain ⟨pid, hpid⟩ := Option.isSome_iff_exists.mp hs
        cases hcd : sc.1.courseData with
        | none => simp [loadStep, load, hcd, hpid, hc]
        | some d => simp [loadStep, load, hcd, hpid, hc, hs]
      | settleWith outcome =>
        right
        obtain ⟨pid, hpid⟩ := Option.isSome_iff_exists.mp hs
        cases outcome with
        | ok d => simp [loadStep, settle, hpid, hc]
        | error err => simp [loadStep, settle, hpid, hc, hs]

/-- C4: `load()` fetches at most once.  (1) A call made while a fetch is in
flight (`courseData` still null, `loadingPromise` set) returns the memoized
promise, issues no fetch and leaves the state unchanged; (2) any sequence of
calls and settlements from the constructor state issues at most one fetch;
(3) after the in-flight promise settles with a transport or parse error the
state is unchanged — the rejected promise stays memoized — and every later
call returns that same rejected promise without fetching again, so the
rejection reaches every caller and no retry ever happens. -/
theorem c4_load_memoized :
    (∀ (α : Type) (s : LoadState α) (pid fresh : Nat),
      s.courseData = none → s.loadingPromise = some pid →
      load s fresh = (.promise pid, s, false)) ∧
    (∀ (α : Type) (events : List (LoadEvent α)), (loadRun events).2 ≤ 1) ∧
    (∀ (α : Type) (s : LoadState α) (pid : Nat) (err : LoadError) (fresh : Nat),
      s.courseData = none → s.loadingPromise = some pid →
      settle s (.error err) = s ∧
        load (settle s (.error err)) fresh = (.promise pid, s, false)) := by
  refine ⟨?_, ?_, ?_⟩
  · intro α s pid fresh hcd hlp
    simp [load, hcd, hlp]
  · intro α events
    have := loadRun_invariant events (initLoadState α, 0) (Or.inl ⟨rfl, rfl⟩)
    rcases this with ⟨hc, _⟩ | ⟨hc, _⟩ <;> simp [loadRun, hc]
  · intro α s pid err fresh hcd hlp
    have hsettle : settle s (.error err) = s := by simp [settle, hlp]
    exact ⟨hsettle, by rw [hsettle]; simp [load, hcd, hlp]⟩

/-- Witness for C4 at concrete inputs: a call with promise 7 in flight, a
four-event trace, and recovery-free failure. -/
theorem c4_load_memoized_witness :
    load (⟨none, some 7⟩ : LoadState Nat) 9 = (.promise 7, ⟨none, some 7⟩, false) ∧
    (loadRun ([.call 1, .call 2, .settleWith (.error .parseError), .call 3] :
      List (LoadEvent Nat))).2 ≤ 1 ∧
    (settle (⟨none, some 7⟩ : LoadState Nat) (.error .parseError) = ⟨none, some 7⟩ ∧
      load (settle (⟨none, some 7⟩ : LoadState Nat) (.error .parseError)) 9 =
        (.promise 7, ⟨none, some 7⟩, false)) :=
  ⟨c4_load_memoized.1 Nat ⟨none, some 7⟩ 7 9 rfl rfl,
   c4_load_memoized.2.1 Nat _,
   c4_load_memoized.2.2 Nat ⟨none, some 7⟩ 7 .parseError 9 rfl rfl⟩

/-! ## C5: behaviour of the section traversals on cyclic input -/

/-- Counterexample to C5: on the one-node cyclic heap the source recursions
perform no cycle detection at all — for every fuel bound both traversals
exhaust the fuel instead of returning (with a result or an error), i.e. the
recursion never terminates. -/
theorem c5_cyclic_traversals_never_return :
    (∀ fuel : Nat, searchSectionsH cyclicHeap heapChapter "loop" fuel [0] = none) ∧
    (∀ fuel : Nat, countSectionConceptsH cyclicHeap fuel [0] = none) := by
  constructor
  · intro fuel
    induction fuel with
    | zero => rfl
    | succ f ih =>
      have ih' : searchSectionsH [⟨some "loop", none, [], [0]⟩] heapChapter "loop" f [0] =
          none := ih
      simp [searchSectionsH, cyclicHeap, ih']
  · intro fuel
    induction fuel with
    | zero => rfl
    | succ f ih =>
      have ih' : countSectionConceptsH [⟨some "loop", none, [], [0]⟩] f [0] = none := ih
      simp [countSectionConceptsH, cyclicHeap, ih']

/-- C5 as amended: the recursive traversals contain no cycle detection; on
any heap in which some reachable section lists itself among its own
subsections, both `searchSections` and `countSectionConcepts` fail to
terminate (they exhaust every fuel bound) instead of failing fast with an
error.  (Such a heap cannot be produced by the JSON loader, since JSON is
tree-shaped.) -/
theorem c5_no_cycle_detection_amended :
    ∀ (heap : List HSection) (i : Nat) (s : HSection) (chap : Chapter) (lq : String)
      (fuel : Nat) (ids : List Nat),
      heap[i]? = some s → i ∈ s.subsections → i ∈ ids →
      searchSectionsH heap chap lq fuel ids = none ∧
      countSectionConceptsH heap fuel ids = none := by
  intro heap i s chap lq fuel
  induction fuel with
  | zero => intro ids _ _ _; exact ⟨rfl, rfl⟩
  | succ f ih =>
    intro ids hs hsub hmem
    cases ids with
    | nil => cases hmem
    | cons j rest =>
      rcases List.mem_cons.mp hmem with rfl | hmem'
      · have hrec := ih s.subsections hs hsub hsub
        constructor
        · simp [searchSectionsH, hs, hrec.1]
        · simp [countSectionConceptsH, hs, hrec.2]
      · have hrec := ih rest hs hsub hmem'
        cases hj : heap[j]? with
        | none => simp [searchSectionsH, countSectionConceptsH, hj]
        | some t =>
          constructor
          · cases h2 : searchSectionsH heap chap lq f t.subsections with
            | none => simp [searchSectionsH, hj, h2]
            | some v => simp [searchSectionsH, hj, h2, hrec.1]
          · cases h2 : countSectionConceptsH heap f t.subsections with
            | none => simp [countSectionConceptsH, hj, h2]
            | some v => simp [countSectionConceptsH, hj, h2, hrec.2]

/-- Witness for C5 (amended) at the concrete cyclic heap and fuel 5. -/
theorem c5_no_cycle_detection_amended_witness :
    searchSectionsH cyclicHeap heapChapter "loop" 5 [0] = none ∧
    countSectionConceptsH cyclicHeap 5 [0] = none :=
  c5_no_cycle_detection_amended cyclicHeap 0 ⟨some "loop", none, [], [0]⟩ heapChapter
    "loop" 5 [0] rfl (by decide) (by decide)

/-! ## C2: search result counting -/

theorem matchesQ_eq_specMatch (t q : String) : matchesQ t (lowerStr q) = specMatch t q := by
  rw [Bool.eq_iff_iff]
  simp only [specMatch, decide_eq_true_eq]
  exact includesAux_iff_infix _ _

theorem optMatches_eq_optSpecMatch (o : Option String) (q : String) :
    optMatches o (lowerStr q) = optSpecMatch o q := by
  cases o with
  | none => rfl
  | some s => exact matchesQ_eq_specMatch s q

theorem length_ite_singleton {α : Type} (c : Prop) [Decidable c] (x : α) :
    (if c then [x] else []).length = if c then 1 else 0 := by
  by_cases h : c <;> simp [h]

theorem flatMap_ite_singleton_length {α β : Type} (l : List α) (p : α → Bool) (g : α → β) :
    (l.flatMap (fun a => if p a then [g a] else [])).length = l.countP p := by
  induction l with
  | nil => rfl
  | cons a l ih =>
    by_cases h : p a = true <;> simp [h, ih, List.countP_cons]

theorem countP_enum_snd {α : Type} (l : List α) (pr : α → Bool) :
    l.enum.countP (fun p => pr p.2) = l.countP pr := by
  have h1 : l.enum.countP (fun p => pr p.2) = (l.enum.map Prod.snd).countP pr := by
    rw [List.countP_map]; rfl
  rw [h1, List.enum_map_snd]

mutual
theorem searchSection_length (chap : Chapter) (q : String) :
    ∀ s : Section, (searchSection chap (lowerStr q) s).length = specSectionCount q s
  | .mk title content concepts subsections => by
    simp only [searchSection, specSectionCount, List.length_append]
    rw [searchSections_length chap q subsections]
    have h1 : (if optMatches title (lowerStr q) then
        [(⟨.section, chap.chapter, chap.title, title, some (content.getD "")⟩ :
          SearchResult)] else []).length = if optSpecMatch title q then 1 else 0 := by
      rw [optMatches_eq_optSpecMatch, length_ite_singleton]
    have h2 : (match content with
        | none => ([] : List SearchResult)
        | some c =>
          if matchesQ c (lowerStr q) then
            [⟨.content, chap.chapter, chap.title, title, some (getContextSnippet c (lowerStr q))⟩]
          else []).length = if optSpecMatch content q then 1 else 0 := by
      cases content with
      | none => rfl
      | some c =>
        dsimp only
        rw [matchesQ_eq_specMatch]
        exact length_ite_singleton _ _
    have h3 : (concepts.flatMap (fun concept =>
        if optMatches concept.name (lowerStr q) || optMatches concept.definition (lowerStr q) then
          [(⟨.concept, chap.chapter, chap.title, concept.name, concept.definition⟩ :
            SearchResult)]
        else [])).length =
        concepts.countP (fun c => optSpecMatch c.name q || optSpecMatch c.definition q) := by
      rw [flatMap_ite_singleton_length]
      apply List.countP_congr
      intro c _
      rw [optMatches_eq_optSpecMatch, optMatches_eq_optSpecMatch]
    rw [h1, h2, h3]

theorem searchSections_length (chap : Chapter) (q : String) :
    ∀ ss : SectionList,
      (searchSections chap (lowerStr q) ss).length = specSectionsCount q ss
  | .nil => rfl
  | .cons s rest => by
    simp only [searchSections, specSectionsCount, List.length_append]
    rw [searchSection_length chap q s, searchSections_length chap q rest]
end

theorem chapterResults_length (chap : Chapter) (q : String) :
    (chapterResults chap (lowerStr q)).length = specChapterCount q chap := by
  simp only [chapterResults, specChapterCount, List.length_append]
  rw [searchSections_length chap q chap.sections]
  have h1 : (if matchesQ chap.title (lowerStr q) then
      [(⟨.chapter, chap.chapter, chap.title, some chap.title, chap.overview⟩ :
        SearchResult)] else []).length = if specMatch chap.title q then 1 else 0 := by
    rw [matchesQ_eq_specMatch, length_ite_singleton]
  have h2 : (match chap.overview with
      | none => ([] : List SearchResult)
      | some o =>
        if matchesQ o (lowerStr q) then
          [⟨.overview, chap.chapter, chap.title, some "Overview",
            some (getContextSnippet o (lowerStr q))⟩]
        else []).length = if optSpecMatch chap.overview q then 1 else 0 := by
    cases ho : chap.overview with
    | none => rfl
    | some o =>
      dsimp only
      rw [matchesQ_eq_specMatch]
      exact length_ite_singleton _ _
  have h3 : (chap.keyTakeaways.enum.flatMap (fun p =>
      if matchesQ p.2 (lowerStr q) then
        [(⟨.takeaway, chap.chapter, chap.title,
          some ("Key Takeaway #" ++ Nat.repr (p.1 + 1)), some p.2⟩ : SearchResult)]
      else [])).length = chap.keyTakeaways.countP (fun t => specMatch t q) := by
    rw [flatMap_ite_singleton_length]
    have := countP_enum_snd chap.keyTakeaways (fun t => matchesQ t (lowerStr q))
    rw [this]
    apply List.countP_congr
    intro t _
    rw [matchesQ_eq_specMatch]
  rw [h1, h2, h3]

/-- Counterexample to C2: in `conceptDoc` the single concept's name and
definition both contain the query `"x"`, so the claim's one-result-per-
matching-field reading predicts two results, but `search` pushes a single
result per matching concept and returns one. -/
theorem c2_concept_single_result_cex :
    claimResultCount conceptDoc "x" = 2 ∧
    (search (some conceptDoc) (some "x")).length = 1 :=
  ⟨by decide, by decide⟩

/-- C2 as amended: for every loaded document and non-empty query, `search`
performs a case-insensitive substring match over the chapter title, the
chapter overview, every key takeaway, every section title and section body
at every depth, and every concept name and definition at every depth, and
produces one SearchResult per matching field for chapter/section fields but
one per matching *concept* — a concept whose name or definition (or both)
match contributes exactly one result. -/
theorem c2_search_count_amended (d : CourseData) (q : String) (hq : q ≠ "") :
    (search (some d) (some q)).length = specResultCount d q := by
  simp only [search, if_neg hq]
  rw [length_flatMap_eq_sum]
  unfold specResultCount
  congr 1
  apply List.map_congr_left
  intro ch _
  exact chapterResults_length ch q

/-- Witness for C2 (amended) at `conceptDoc` with query `"x"`. -/
theorem c2_search_count_amended_witness :
    "x" ≠ "" ∧ (search (some conceptDoc) (some "x")).length = specResultCount conceptDoc "x" :=
  ⟨by decide, c2_search_count_amended conceptDoc "x" (by decide)⟩

/-! ## Mind-map expansion lemmas -/

theorem mem_childrenOf {items : List FlatItem} {id c : String}
    (h : c ∈ childrenOf items id) : ∃ it ∈ items, it.id = c ∧ it.parent = some id := by
  simp only [childrenOf, List.mem_map, List.mem_filter] at h
  obtain ⟨it, ⟨hit, hp⟩, rfl⟩ := h
  exact ⟨it, hit, rfl, by simpa using hp⟩

theorem removeDescendants_subset (items : List FlatItem) :
    ∀ (fuel : Nat) (c : String) (s : Finset String),
      removeDescendants items fuel c s ⊆ s := by
  intro fuel
  induction fuel with
  | zero => intro c s; exact Finset.Subset.refl s
  | succ f ih =>
    intro c s
    simp only [removeDescendants]
    have haux : ∀ (cs : List String) (acc : Finset String),
        cs.foldl (fun a child => removeDescendants items f child a) acc ⊆ acc := by
      intro cs
      induction cs with
      | nil => intro acc; exact Finset.Subset.refl acc
      | cons d cs ihcs =>
        intro acc
        simp only [List.foldl_cons]
        exact (ihcs _).trans (ih d acc)
    exact (haux _ _).trans (Finset.erase_subset c s)

theorem root_mem_removeDescendants (items : List FlatItem)
    (hroot : ∀ it ∈ items, it.parent.isSome → it.id ≠ "root") :
    ∀ (fuel : Nat) (c : String) (s : Finset String),
      c ≠ "root" → "root" ∈ s → "root" ∈ removeDescendants items fuel c s := by
  intro fuel
  induction fuel with
  | zero => intro c s _ hs; exact hs
  | succ f ih =>
    intro c s hc hs
    simp only [removeDescendants]
    have hkids : ∀ x ∈ childrenOf items c, x ≠ "root" := by
      intro x hx
      obtain ⟨it, hit, rfl, hp⟩ := mem_childrenOf hx
      exact hroot it hit (by simp [hp])
    have hbase : "root" ∈ s.erase c := Finset.mem_erase.mpr ⟨Ne.symm hc, hs⟩
    have haux : ∀ (cs : List String) (acc : Finset String),
        (∀ x ∈ cs, x ≠ "root") → "root" ∈ acc →
        "root" ∈ cs.foldl (fun a child => removeDescendants items f child a) acc := by
      intro cs
      induction cs with
      | nil => intro acc _ h; exact h
      | cons d cs ihcs =>
        intro acc hx h
        simp only [List.foldl_cons]
        exact ihcs _ (fun x hxx => hx x (List.mem_cons_of_mem _ hxx))
          (ih d acc (hx d (List.mem_cons_self _ _)) h)
    exact haux _ _ hkids hbase

/-- Counterexample to C6: from the initial state (`expandedNodes = {'root'}`),
a single click on the root node — which has children and is expanded, so
`handleNodeClick` collapses it — removes `'root'` from the expanded set. -/
theorem c6_rootRemoved_cex :
    "root" ∉ mapRun exampleItems initialExpanded [.click "root"] := by decide

/-- C6 as amended: `'root'` stays in the expanded set in every state
reached from a state containing it by operations that never collapse the
root — any `expandNode`, and any click or `collapseNode` aimed at another
node (given that no item carries the id `'root'` together with a parent, as
holds for every flattened document).  Collapsing the root itself — directly
or by clicking the expanded root — removes `'root'` from the set, though the
root node itself stays visible because visibility special-cases it. -/
theorem c6_rootInvariant_amended (items : List FlatItem)
    (hroot : ∀ it ∈ items, it.parent.isSome → it.id ≠ "root") :
    ∀ (ops : List MapOp) (s : Finset String),
      (∀ op ∈ ops, op.safeForRoot) → "root" ∈ s → "root" ∈ mapRun items s ops := by
  intro ops
  induction ops with
  | nil => intro s _ h; exact h
  | cons op ops ih =>
    intro s hsafe h
    have hstep : "root" ∈ mapStep items s op := by
      have hsop := hsafe op (List.mem_cons_self _ _)
      cases op with
      | expand id =>
        simp only [mapStep, expandNode]
        exact Finset.mem_insert_of_mem h
      | collapse id =>
        exact root_mem_removeDescendants items hroot _ id s hsop h
      | click id =>
        simp only [mapStep, handleNodeClick]
        by_cases h1 : hasChildren items id = true
        · simp only [h1, if_true]
          by_cases h2 : id ∈ s
          · simp only [h2, if_true]
            exact root_mem_removeDescendants items hroot _ id s hsop h
          · simp only [h2, if_false]
            exact Finset.mem_insert_of_mem h
        · simp only [h1, if_false]
          exact h
    have := ih (mapStep items s op) (fun o ho => hsafe o (List.mem_cons_of_mem _ ho)) hstep
    simpa [mapRun, List.foldl_cons] using this

/-- Witness for C6 (amended): a click on `part-1` from the initial state. -/
theorem c6_rootInvariant_amended_witness :
    "root" ∈ mapRun exampleItems initialExpanded [.click "part-1"] :=
  c6_rootInvariant_amended exampleItems (by decide) [.click "part-1"] initialExpanded
    (by
      intro op hop
      rcases List.mem_singleton.mp hop with rfl
      exact (by decide : ("part-1" : String) ≠ "root"))
    (by decide)

/-! ## C3: collapse and re-expand -/

theorem mem_foldl_union_iff (g : String → Finset String) :
    ∀ (cs : List String) (init : Finset String) (x : String),
      (x ∈ cs.foldl (fun acc c => acc ∪ g c) init ↔ x ∈ init ∨ ∃ c ∈ cs, x ∈ g c) := by
  intro cs
  induction cs with
  | nil => intro init x; simp
  | cons c cs ih =>
    intro init x
    simp only [List.foldl_cons, ih, Finset.mem_union, List.mem_cons]
    constructor
    · rintro (⟨h | h⟩ | ⟨c', hc', hx⟩)
      · exact Or.inl h
      · exact Or.inr ⟨c, Or.inl rfl, h⟩
      · exact Or.inr ⟨c', Or.inr hc', hx⟩
    · rintro (h | ⟨c', (rfl | hc'), hx⟩)
      · exact Or.inl (Or.inl h)
      · exact Or.inl (Or.inr hx)
      · exact Or.inr ⟨c', hc', hx⟩

theorem foldl_remove_subset (items : List FlatItem) (m : Nat) :
    ∀ (cs : List String) (acc : Finset String),
      cs.foldl (fun a child => removeDescendants items m child a) acc ⊆ acc := by
  intro cs
  induction cs with
  | nil => intro acc; exact Finset.Subset.refl acc
  | cons d cs ihcs =>
    intro acc
    simp only [List.foldl_cons]
    exact (ihcs _).trans (removeDescendants_subset items m d acc)

theorem not_mem_foldl_remove_of_not_mem (items : List FlatItem) (m : Nat) (x : String)
    (cs : List String) (acc : Finset String) (hx : x ∉ acc) :
    x ∉ cs.foldl (fun a child => removeDescendants items m child a) acc :=
  fun hmem => hx (foldl_remove_subset items m cs acc hmem)

theorem removeDescendants_succ (items : List FlatItem) (fuel : Nat) (id : String)
    (s : Finset String) :
    removeDescendants items (fuel + 1) id s =
      (childrenOf items id).foldl
        (fun acc child => removeDescendants items fuel child acc) (s.erase id) := rfl

theorem not_mem_removeDescendants (items : List FlatItem) :
    ∀ (n : Nat) (c : String) (s : Finset String) (x : String),
      x ∈ descWithin items n c → x ∉ removeDescendants items (n + 1) c s := by
  intro n
  induction n with
  | zero =>
    intro c s x hx
    have hxc : x = c := by simpa [descWithin] using hx
    subst hxc
    rw [removeDescendants_succ]
    have hfold : ∀ (cs : List String) (acc : Finset String),
        cs.foldl (fun a child => removeDescendants items 0 child a) acc = acc := by
      intro cs acc
      exact foldl_const cs acc
    rw [hfold]
    exact Finset.not_mem_erase x s
  | succ n ih =>
    intro c s x hx
    rw [descWithin] at hx
    rcases Finset.mem_insert.mp hx with rfl | hx'
    · rw [removeDescendants_succ]
      apply not_mem_foldl_remove_of_not_mem
      exact Finset.not_mem_erase x s
    · rw [mem_foldl_union_iff] at hx'
      rcases hx' with hempty | ⟨c', hc', hxc'⟩
      · simp at hempty
      · rw [removeDescendants_succ]
        have haux : ∀ (cs : List String) (acc : Finset String), c' ∈ cs →
            x ∉ cs.foldl (fun a child => removeDescendants items (n + 1) child a) acc := by
          intro cs
          induction cs with
          | nil => intro acc h; cases h
          | cons d cs ihcs =>
            intro acc hd
            simp only [List.foldl_cons]
            rcases List.mem_cons.mp hd with heq | hd'
            · exact not_mem_foldl_remove_of_not_mem items _ x cs _ (ih d acc x (heq ▸ hxc'))
            · exact ihcs _ hd'
        exact haux _ _ hc'

theorem descWithin_mem_self (items : List FlatItem) :
    ∀ (n : Nat) (c : String), c ∈ descWithin items n c := by
  intro n c
  cases n with
  | zero => simp [descWithin]
  | succ n => simp [descWithin]

theorem removeDescendants_noop (items : List FlatItem) :
    ∀ (n : Nat) (c : String) (s : Finset String),
      (∀ x ∈ descWithin items n c, x ∉ s) → removeDescendants items n c s = s := by
  intro n
  induction n with
  | zero => intro c s _; rfl
  | succ n ih =>
    intro c s h
    have hc : c ∉ s := h c (descWithin_mem_self items _ c)
    simp only [removeDescendants]
    rw [Finset.erase_eq_of_not_mem hc]
    have haux : ∀ cs : List String,
        (∀ c' ∈ cs, ∀ x ∈ descWithin items n c', x ∉ s) →
        cs.foldl (fun a child => removeDescendants items n child a) s = s := by
      intro cs
      induction cs with
      | nil => intro _; rfl
      | cons d cs ihcs =>
        intro hcs
        simp only [List.foldl_cons]
        rw [ih d s (hcs d (List.mem_cons_self _ _))]
        exact ihcs (fun c' h' => hcs c' (List.mem_cons_of_mem _ h'))
    apply haux
    intro c' hc' x hxd
    apply h
    rw [descWithin]
    apply Finset.mem_insert_of_mem
    rw [mem_foldl_union_iff]
    exact Or.inr ⟨c', hc', hxd⟩

/-- Counterexample to C3: a reachable state in which `part-1` is expanded
(one click on `part-1` from the initial state).  Clicking the expanded root
collapses it; clicking it again re-expands it; the visible node set after
the round trip differs from the one before (Chapter 1's and Chapter 2's
nodes are no longer rendered, since the collapse also discarded `part-1`'s
expansion). -/
theorem c3_roundtrip_cex :
    (visibleItems exampleItems (mapRun exampleItems initialExpanded
        [.click "part-1", .click "root", .click "root"])).map FlatItem.id ≠
    (visibleItems exampleItems (mapRun exampleItems initialExpanded
        [.click "part-1"])).map FlatItem.id := by decide

/-- C3 as amended: collapsing a node does remove every transitively visible
descendant of that node from the rendered set (first conjunct: any item
whose parent lies among the node's transitive descendants is not rendered
after the collapse).  But re-expanding the node restores the previously
visible set only when no transitive descendant of the collapsed node was
itself in the expanded set — `collapseNode` erases the whole descendant
subtree's expansion state and `expandNode` re-adds only the node itself
(second conjunct).  In general the descendants' expansion state is lost, as
the counterexample shows. -/
theorem c3_collapse_expand_amended (items : List FlatItem) (expanded : Finset String)
    (id : String)
    (hroot : ∀ it ∈ items, it.parent.isSome → it.id ≠ "root") :
    (∀ it ∈ items, ∀ p, it.parent = some p →
       p ∈ descWithin items items.length id →
       it ∉ visibleItems items (collapseNode items expanded id)) ∧
    (id ∈ expanded →
     (∀ c ∈ childrenOf items id, ∀ x ∈ descWithin items items.length c, x ∉ expanded) →
     visibleItems items (expandNode (collapseNode items expanded id) id) =
       visibleItems items expanded) := by
  constructor
  · intro it hit p hp hpdesc hvis
    have hpred := (List.mem_filter.mp hvis).2
    have hid : it.id ≠ "root" := hroot it hit (by simp [hp])
    rw [hp] at hpred
    simp only [Bool.or_eq_true, beq_iff_eq, decide_eq_true_eq] at hpred
    rcases hpred with h | h
    · exact hid h
    · exact not_mem_removeDescendants items items.length id expanded p hpdesc h
  · intro hid hfresh
    have h1 : collapseNode items expanded id = expanded.erase id := by
      simp only [collapseNode, removeDescendants]
      have haux : ∀ cs : List String,
          (∀ c' ∈ cs, ∀ x ∈ descWithin items items.length c', x ∉ expanded.erase id) →
          cs.foldl (fun a child => removeDescendants items items.length child a)
            (expanded.erase id) = expanded.erase id := by
        intro cs
        induction cs with
        | nil => intro _; rfl
        | cons d cs ihcs =>
          intro hcs
          simp only [List.foldl_cons]
          rw [removeDescendants_noop items items.length d _
            (hcs d (List.mem_cons_self _ _))]
          exact ihcs (fun c' h' => hcs c' (List.mem_cons_of_mem _ h'))
      apply haux
      intro c' hc' x hxd hxmem
      exact hfresh c' hc' x hxd (Finset.mem_of_mem_erase hxmem)
    rw [h1]
    simp only [expandNode]
    rw [Finset.insert_erase hid]

/-- Witness for C3 (amended) on the worked example: collapsing `part-1` from
the state `{root, part-1}` hides Chapter 1's node, and re-expanding restores
the previously visible set (no descendant of `part-1` was expanded). -/
theorem c3_collapse_expand_amended_witness :
    (exampleChapterNode ∉ visibleItems exampleItems
        (collapseNode exampleItems (insert "part-1" initialExpanded) "part-1")) ∧
    visibleItems exampleItems
        (expandNode (collapseNode exampleItems (insert "part-1" initialExpanded) "part-1")
          "part-1") =
      visibleItems exampleItems (insert "part-1" initialExpanded) := by
  constructor
  · exact (c3_collapse_expand_amended exampleItems (insert "part-1" initialExpanded)
      "part-1" (by decide)).1 exampleChapterNode (by decide) "part-1" rfl (by decide)
  · exact (c3_collapse_expand_amended exampleItems (insert "part-1" initialExpanded)
      "part-1" (by decide)).2 (by decide) (by decide)

/-! ## C7: escape-then-highlight -/

theorem isPrefixOf_cons_ne {a b : Char} (as bs : List Char) (h : a ≠ b) :
    (a :: as).isPrefixOf (b :: bs) = false := by
  simp [List.isPrefixOf, h]

theorem isPrefixOf_mark_false {c : Char} (hc : c ≠ '<') (l : List Char) :
    ("<mark>".data).isPrefixOf (c :: l) = false :=
  isPrefixOf_cons_ne _ _ (fun h => hc h.symm)

theorem isPrefixOf_endmark_false {c : Char} (hc : c ≠ '<') (l : List Char) :
    ("</mark>".data).isPrefixOf (c :: l) = false :=
  isPrefixOf_cons_ne _ _ (fun h => hc h.symm)

theorem stripMarks_cons (c : Char) (rest : List Char) :
    stripMarks (c :: rest) =
      if "<mark>".data.isPrefixOf (c :: rest) then stripMarks ((c :: rest).drop 6)
      else if "</mark>".data.isPrefixOf (c :: rest) then stripMarks ((c :: rest).drop 7)
      else c :: stripMarks rest := by
  rw [stripMarks]

theorem stripMarks_mark (t : List Char) :
    stripMarks ("<mark>".data ++ t) = stripMarks t := by
  show stripMarks ('<' :: 'm' :: 'a' :: 'r' :: 'k' :: '>' :: t) = stripMarks t
  rw [stripMarks_cons]
  simp [List.isPrefixOf]

theorem stripMarks_endmark (t : List Char) :
    stripMarks ("</mark>".data ++ t) = stripMarks t := by
  show stripMarks ('<' :: '/' :: 'm' :: 'a' :: 'r' :: 'k' :: '>' :: t) = stripMarks t
  rw [stripMarks_cons]
  simp [List.isPrefixOf]

theorem stripMarks_plain_cons {c : Char} (hc : c ≠ '<') (rest : List Char) :
    stripMarks (c :: rest) = c :: stripMarks rest := by
  rw [stripMarks_cons, isPrefixOf_mark_false hc, isPrefixOf_endmark_false hc]
  simp

theorem stripMarks_nil : stripMarks [] = [] := by rw [stripMarks]

theorem unescapeHtml_nil : unescapeHtml [] = [] := by rw [unescapeHtml]

theorem stripMarks_no_lt : ∀ (s : List Char), (∀ c ∈ s, c ≠ '<') →
    ∀ t, stripMarks (s ++ t) = s ++ stripMarks t := by
  intro s
  induction s with
  | nil => intro _ t; rfl
  | cons c s ih =>
    intro hs t
    rw [List.cons_append, stripMarks_plain_cons (hs c (List.mem_cons_self _ _))]
    rw [ih (fun x hx => hs x (List.mem_cons_of_mem _ hx)) t]
    exact (List.cons_append _ _ _).symm

theorem unescapeHtml_cons (c : Char) (rest : List Char) :
    unescapeHtml (c :: rest) =
      if "&amp;".data.isPrefixOf (c :: rest) then '&' :: unescapeHtml ((c :: rest).drop 5)
      else if "&lt;".data.isPrefixOf (c :: rest) then '<' :: unescapeHtml ((c :: rest).drop 4)
      else if "&gt;".data.isPrefixOf (c :: rest) then '>' :: unescapeHtml ((c :: rest).drop 4)
      else c :: unescapeHtml rest := by
  rw [unescapeHtml]

theorem unescape_amp (t : List Char) :
    unescapeHtml ('&' :: 'a' :: 'm' :: 'p' :: ';' :: t) = '&' :: unescapeHtml t := by
  rw [unescapeHtml_cons]
  simp [List.isPrefixOf]

theorem unescape_lt (t : List Char) :
    unescapeHtml ('&' :: 'l' :: 't' :: ';' :: t) = '<' :: unescapeHtml t := by
  rw [unescapeHtml_cons]
  simp [List.isPrefixOf]

theorem unescape_gt (t : List Char) :
    unescapeHtml ('&' :: 'g' :: 't' :: ';' :: t) = '>' :: unescapeHtml t := by
  rw [unescapeHtml_cons]
  simp [List.isPrefixOf]

theorem unescape_plain {c : Char} (hc : c ≠ '&') (t : List Char) :
    unescapeHtml (c :: t) = c :: unescapeHtml t := by
  rw [unescapeHtml_cons]
  rw [isPrefixOf_cons_ne _ _ (fun h => hc h.symm),
      isPrefixOf_cons_ne _ _ (fun h => hc h.symm),
      isPrefixOf_cons_ne _ _ (fun h => hc h.symm)]
  simp

theorem unescape_escape (l : List Char) : unescapeHtml (l.flatMap escapeChar) = l := by
  induction l with
  | nil => simp [unescapeHtml_nil]
  | cons c l ih =>
    rw [List.flatMap_cons]
    by_cases h1 : c = '&'
    · subst h1
      show unescapeHtml ('&' :: 'a' :: 'm' :: 'p' :: ';' :: l.flatMap escapeChar) =
        '&' :: l
      rw [unescape_amp, ih]
    · by_cases h2 : c = '<'
      · subst h2
        show unescapeHtml ('&' :: 'l' :: 't' :: ';' :: l.flatMap escapeChar) = '<' :: l
        rw [unescape_lt, ih]
      · by_cases h3 : c = '>'
        · subst h3
          show unescapeHtml ('&' :: 'g' :: 't' :: ';' :: l.flatMap escapeChar) = '>' :: l
          rw [unescape_gt, ih]
        · have he : escapeChar c = [c] := by simp [escapeChar, h1, h2, h3]
          rw [he, List.singleton_append, unescape_plain h1, ih]

theorem escapeChar_no_lt (a : Char) : ∀ c ∈ escapeChar a, c ≠ '<' := by
  intro c hc
  by_cases h1 : a = '&'
  · subst h1
    simp [escapeChar] at hc
    rcases hc with rfl | rfl | rfl | rfl | rfl <;> decide
  · by_cases h2 : a = '<'
    · subst h2
      simp [escapeChar] at hc
      rcases hc with rfl | rfl | rfl | rfl <;> decide
    · by_cases h3 : a = '>'
      · subst h3
        simp [escapeChar] at hc
        rcases hc with rfl | rfl | rfl | rfl <;> decide
      · have he : escapeChar a = [a] := by simp [escapeChar, h1, h2, h3]
        rw [he] at hc
        rcases List.mem_singleton.mp hc with rfl
        exact h2

theorem escape_no_lt (s : String) : ∀ c ∈ (escapeHtml s).data, c ≠ '<' := by
  intro c hc
  have : c ∈ s.data.flatMap escapeChar := hc
  rcases List.mem_flatMap.mp this with ⟨a, _, hca⟩
  exact escapeChar_no_lt a c hca

theorem escapeChar_ne_nil (a : Char) : escapeChar a ≠ [] := by
  by_cases h1 : a = '&'
  · subst h1; simp [escapeChar]
  · by_cases h2 : a = '<'
    · subst h2; simp [escapeChar]
    · by_cases h3 : a = '>'
      · subst h3; simp [escapeChar]
      · simp [escapeChar, h1, h2, h3]

theorem escape_ne_nil {s : String} (hs : s ≠ "") : (escapeHtml s).data ≠ [] := by
  intro h
  apply hs
  cases hd : s.data with
  | nil => exact string_ext hd
  | cons c rest =>
    have : (escapeHtml s).data = escapeChar c ++ rest.flatMap escapeChar := by
      show s.data.flatMap escapeChar = _
      rw [hd, List.flatMap_cons]
    rw [this] at h
    exact absurd (List.append_eq_nil.mp h).1 (escapeChar_ne_nil c)

theorem highlightAux_unfold (q : List Char) (fuel : Nat) (c : Char) (rest : List Char) :
    highlightAux q (fuel + 1) (c :: rest) =
      if (lowerL q).isPrefixOf (lowerL (c :: rest)) then
        "<mark>".data ++ (c :: rest).take q.length ++ "</mark>".data ++
          highlightAux q fuel ((c :: rest).drop q.length)
      else c :: highlightAux q fuel rest := rfl

theorem strip_highlightAux (q : List Char) (hq : q ≠ []) :
    ∀ (fuel : Nat) (t : List Char), t.length ≤ fuel → (∀ c ∈ t, c ≠ '<') →
      stripMarks (highlightAux q fuel t) = t := by
  intro fuel
  induction fuel with
  | zero =>
    intro t ht _
    have : t = [] := List.eq_nil_of_length_eq_zero (Nat.le_zero.mp ht)
    subst this
    show stripMarks [] = []
    exact stripMarks_nil
  | succ f ih =>
    intro t ht hlt
    cases t with
    | nil =>
      show stripMarks [] = []
      exact stripMarks_nil
    | cons c rest =>
      rw [highlightAux_unfold]
      by_cases hm : (lowerL q).isPrefixOf (lowerL (c :: rest)) = true
      · rw [if_pos hm]
        have hqlen : 1 ≤ q.length := by
          cases q with
          | nil => exact absurd rfl hq
          | cons _ _ => simp
        have hdroplen : ((c :: rest).drop q.length).length ≤ f := by
          simp only [List.length_drop, List.length_cons]
          have : rest.length + 1 ≤ f + 1 := by simpa using ht
          omega
        have hdroplt : ∀ x ∈ (c :: rest).drop q.length, x ≠ '<' :=
          fun x hx => hlt x (List.drop_subset _ _ hx)
        have htakelt : ∀ x ∈ (c :: rest).take q.length, x ≠ '<' :=
          fun x hx => hlt x (List.take_subset _ _ hx)
        rw [List.append_assoc, List.append_assoc, stripMarks_mark,
            stripMarks_no_lt _ htakelt, stripMarks_endmark, ih _ hdroplen hdroplt,
            List.take_append_drop]
      · rw [if_neg hm]
        have hc : c ≠ '<' := hlt c (List.mem_cons_self _ _)
        rw [stripMarks_plain_cons hc,
            ih rest (by simpa using Nat.le_of_succ_le_succ (by simpa using ht))
              (fun x hx => hlt x (List.mem_cons_of_mem _ hx))]

/-- Counterexample to C7: the metacharacter-free query `"aa"` has two
(overlapping) case-insensitive occurrences in the text `"aaa"`, but the
global left-to-right replacement wraps only the leftmost, non-overlapping
one — the output is `<mark>aa</mark>a`, carrying a single `<mark>` wrap, so
not every occurrence of the query is wrapped. -/
theorem c7_overlap_cex :
    highlightQuery "aaa" "aa" = some "<mark>aa</mark>a" ∧
    countOccurrences (lowerStr "aa").data (lowerStr "aaa").data = 2 ∧
    countOccurrences "<mark>".data ("<mark>aa</mark>a" : String).data = 1 :=
  ⟨by decide, by decide, by decide⟩

/-- C7 as amended: `highlightQuery` first HTML-escapes the text and the
query; for every text and every query whose escaped form contains no
regular-expression metacharacter — so that the constructed pattern matches
the escaped query literally — it produces an output that wraps the leftmost
non-overlapping case-insensitive occurrences of the escaped query in
`<mark>` markup (overlapping occurrences beyond a wrapped one are not
wrapped, as the counterexample shows), and stripping the injected mark tags
from that output and decoding the HTML escapes yields exactly the original
plain text.  For a query whose escaped form does contain a metacharacter the
source interprets the pattern as a regular expression — wrapping a language
other than the query, or throwing on an invalid pattern — so neither the
wrapping description nor the round trip is claimed there. -/
theorem c7_roundtrip_amended (text query : String)
    (hq : (escapeHtml query).data.any regexMetachar = false) :
    ∃ out : String, highlightQuery text query = some out ∧
      unescapeHtml (stripMarks out.data) = text.data := by
  by_cases h : text = "" ∨ query = ""
  · refine ⟨escapeHtml text, by simp [highlightQuery, h], ?_⟩
    have h1 : stripMarks (escapeHtml text).data = (escapeHtml text).data := by
      have := stripMarks_no_lt (escapeHtml text).data (escape_no_lt text) []
      simpa [stripMarks_nil] using this
    rw [h1]
    exact unescape_escape text.data
  · have hqne : query ≠ "" := fun hqe => h (Or.inr hqe)
    refine ⟨⟨highlightAux (escapeHtml query).data (escapeHtml text).data.length
      (escapeHtml text).data⟩, by simp [highlightQuery, h, hq], ?_⟩
    show unescapeHtml (stripMarks (highlightAux (escapeHtml query).data
      (escapeHtml text).data.length (escapeHtml text).data)) = text.data
    rw [strip_highlightAux (escapeHtml query).data (escape_ne_nil hqne) _
      (escapeHtml text).data (Nat.le_refl _) (escape_no_lt text)]
    exact unescape_escape text.data

/-- Witness for C7 (amended) at text `"aaa"` and the metacharacter-free
query `"aa"`. -/
theorem c7_roundtrip_amended_witness :
    (escapeHtml "aa").data.any regexMetachar = false ∧
    ∃ out : String, highlightQuery "aaa" "aa" = some out ∧
      unescapeHtml (stripMarks out.data) = ("aaa" : String).data :=
  ⟨by decide, c7_roundtrip_amended "aaa" "aa" (by decide)⟩

/-! ## C1: shape of the flattened node list -/

theorem sum_map_zero {α : Type} (l : List α) : (l.map (fun _ => (0 : Nat))).sum = 0 := by
  induction l <;> simp [*]

theorem sum_map_one {α : Type} (l : List α) : (l.map (fun _ => (1 : Nat))).sum = l.length := by
  induction l with
  | nil => rfl
  | cons a l ih => simp [ih]; omega

theorem takeaway_countP_root (p : Part) (ch : Chapter) :
    (takeawayItems p ch).countP (fun it => it.type == FlatType.root) = 0 := by
  rw [takeawayItems, List.countP_map]
  exact List.countP_eq_zero.mpr (fun q _ => by simp)

theorem takeaway_countP_part (p : Part) (ch : Chapter) :
    (takeawayItems p ch).countP (fun it => it.type == FlatType.part) = 0 := by
  rw [takeawayItems, List.countP_map]
  exact List.countP_eq_zero.mpr (fun q _ => by simp)

theorem takeaway_countP_chapter (p : Part) (ch : Chapter) :
    (takeawayItems p ch).countP (fun it => it.type == FlatType.chapter) = 0 := by
  rw [takeawayItems, List.countP_map]
  exact List.countP_eq_zero.mpr (fun q _ => by simp)

theorem flatten_countP_root (d : CourseData) :
    (getFlattenedContent d).countP (fun it => it.type == FlatType.root) = 1 := by
  simp [getFlattenedContent, List.countP_cons, countP_flatMap, partItem, chapterItem,
        takeaway_countP_root, sum_map_zero]

theorem flatten_countP_part (d : CourseData) :
    (getFlattenedContent d).countP (fun it => it.type == FlatType.part) = d.parts.length := by
  simp [getFlattenedContent, List.countP_cons, countP_flatMap, partItem, chapterItem,
        takeaway_countP_part, sum_map_zero, sum_map_one]

theorem flatten_countP_chapter (d : CourseData) :
    (getFlattenedContent d).countP (fun it => it.type == FlatType.chapter) =
      (d.parts.map (fun p => (getChaptersByPart (some d) p.part).length)).sum := by
  simp [getFlattenedContent, List.countP_cons, countP_flatMap, partItem, chapterItem,
        takeaway_countP_chapter, sum_map_zero, sum_map_one]

theorem takeaway_countP_parent (p : Part) (ch ch' : Chapter) :
    (takeawayItems p ch').countP
      (fun it => it.type == FlatType.takeaway && it.parent == some (chapterIdStr ch)) =
      if chapterIdStr ch' = chapterIdStr ch then min 5 ch'.keyTakeaways.length else 0 := by
  rw [takeawayItems, List.countP_map]
  by_cases h : chapterIdStr ch' = chapterIdStr ch
  · rw [if_pos h]
    rw [List.countP_eq_length.mpr (fun q _ => by simp [h])]
    rw [List.enum_length, List.length_take, inf_eq_min]
  · rw [if_neg h]
    exact List.countP_eq_zero.mpr (fun q _ => by simp [h])

theorem flatten_countP_takeaway (d : CourseData) (ch : Chapter) :
    (getFlattenedContent d).countP
      (fun it => it.type == FlatType.takeaway && it.parent == some (chapterIdStr ch)) =
      (d.parts.map (fun p =>
        ((getChaptersByPart (some d) p.part).map (fun ch' =>
          if chapterIdStr ch' = chapterIdStr ch then min 5 ch'.keyTakeaways.length
          else 0)).sum)).sum := by
  simp [getFlattenedContent, List.countP_cons, countP_flatMap, partItem, chapterItem,
        takeaway_countP_parent, sum_map_zero]

theorem getPart_eq_self (d : CourseData) (hnd : (d.parts.map Part.part).Nodup)
    {p : Part} (hp : p ∈ d.parts) : getPart (some d) p.part = some p :=
  find?_of_nodup_map Part.part p d.parts hnd hp

theorem getChapter_eq_self (d : CourseData) (hnd : (d.chapters.map Chapter.chapter).Nodup)
    {ch : Chapter} (hch : ch ∈ d.chapters) : getChapter (some d) ch.chapter = some ch :=
  find?_of_nodup_map Chapter.chapter ch d.chapters hnd hch

theorem getChapter_mem {d : CourseData} {r : Nat} {ch : Chapter}
    (h : getChapter (some d) r = some ch) : ch ∈ d.chapters ∧ ch.chapter = r := by
  refine ⟨List.mem_of_find?_eq_some h, ?_⟩
  have := List.find?_some h
  simpa using this

theorem getChaptersByPart_eq (d : CourseData) (hnd : (d.parts.map Part.part).Nodup)
    {p : Part} (hp : p ∈ d.parts) :
    getChaptersByPart (some d) p.part = p.chapters.filterMap (getChapter (some d)) := by
  unfold getChaptersByPart
  rw [getPart_eq_self d hnd hp]

theorem count_flatMap {α β : Type} [BEq β] (l : List α) (f : α → List β) (b : β) :
    (l.flatMap f).count b = (l.map (fun a => (f a).count b)).sum := by
  induction l with
  | nil => rfl
  | cons a l ih => simp [List.count_append, ih]

theorem sum_map_mul_right {α : Type} (l : List α) (g : α → Nat) (B : Nat) :
    (l.map (fun a => g a * B)).sum = (l.map g).sum * B := by
  induction l with
  | nil => simp
  | cons a l ih => simp [ih, Nat.add_mul]

theorem sum_ite_eq_countP_mul {α : Type} (l : List α) (g : α → Nat) (p : α → Prop)
    [DecidablePred p] (B : Nat) (h : ∀ a ∈ l, p a → g a = B) :
    (l.map (fun a => if p a then g a else 0)).sum = l.countP (fun a => decide (p a)) * B := by
  induction l with
  | nil => simp
  | cons a l ih =>
    have ih' := ih (fun x hx hpx => h x (List.mem_cons_of_mem _ hx) hpx)
    by_cases hp : p a
    · simp [hp, ih', h a (List.mem_cons_self _ _) hp, List.countP_cons, Nat.add_mul,
        Nat.add_comm]
    · simp [hp, ih', List.countP_cons]

theorem sum_chapters_length (d : CourseData) (hv : ValidCourse d) :
    (d.parts.map (fun p => (getChaptersByPart (some d) p.part).length)).sum =
      d.chapters.length := by
  obtain ⟨h1, h2, h3⟩ := hv
  have e1 : ∀ p ∈ d.parts, (getChaptersByPart (some d) p.part).length =
      p.chapters.countP (fun r => (getChapter (some d) r).isSome) := fun p hp => by
    rw [getChaptersByPart_eq d h1 hp, length_filterMap_eq_countP]
  rw [List.map_congr_left e1, ← countP_flatMap]
  have e2 : ∀ r ∈ d.parts.flatMap Part.chapters,
      ((getChapter (some d) r).isSome = true ↔
        decide (r ∈ d.chapters.map Chapter.chapter) = true) := by
    intro r _
    simp only [Option.isSome_iff_exists, decide_eq_true_eq, List.mem_map]
    constructor
    · rintro ⟨ch, hch⟩
      obtain ⟨hm, hr⟩ := getChapter_mem hch
      exact ⟨ch, hm, hr⟩
    · rintro ⟨ch, hm, hr⟩
      exact ⟨ch, hr ▸ getChapter_eq_self d h2 hm⟩
  rw [List.countP_congr e2]
  rw [countP_mem_eq_sum_count _ (d.chapters.map Chapter.chapter) h2]
  rw [List.map_map]
  have e3 : ∀ ch ∈ d.chapters,
      ((fun c => (d.parts.flatMap Part.chapters).count c) ∘ Chapter.chapter) ch =
        (fun _ => (1 : Nat)) ch := by
    intro ch hch
    exact h3 ch hch
  rw [List.map_congr_left e3, sum_map_one]

theorem takeaway_sum_valid (d : CourseData) (hv : ValidCourse d) {ch : Chapter}
    (hch : ch ∈ d.chapters) :
    (d.parts.map (fun p =>
      ((getChaptersByPart (some d) p.part).map (fun ch' =>
        if chapterIdStr ch' = chapterIdStr ch then min 5 ch'.keyTakeaways.length
        else 0)).sum)).sum = min 5 ch.keyTakeaways.length := by
  obtain ⟨h1, h2, h3⟩ := hv
  have e1 : ∀ p ∈ d.parts,
      ((getChaptersByPart (some d) p.part).map (fun ch' =>
        if chapterIdStr ch' = chapterIdStr ch then min 5 ch'.keyTakeaways.length
        else 0)).sum =
      (p.chapters.countP (fun r => decide (r = ch.chapter))) *
        min 5 ch.keyTakeaways.length := by
    intro p hp
    rw [getChaptersByPart_eq d h1 hp]
    rw [sum_ite_eq_countP_mul _ _ _ (min 5 ch.keyTakeaways.length) (by
      intro ch' hmem hcid
      obtain ⟨r, hrmem, hget⟩ := List.mem_filterMap.mp hmem
      obtain ⟨hm, _⟩ := getChapter_mem hget
      have hcc : ch' = ch := List.inj_on_of_nodup_map h2 hm hch (chapterIdStr_inj hcid)
      rw [hcc])]
    rw [countP_filterMap_eq]
    congr 1
    apply List.countP_congr
    intro r _
    cases hg : getChapter (some d) r with
    | none =>
      simp only [hg, decide_eq_true_eq]
      constructor
      · intro hfalse; cases hfalse
      · intro hrch
        have := getChapter_eq_self d h2 hch
        rw [← hrch] at this
        rw [hg] at this
        cases this
    | some ch' =>
      obtain ⟨hm, hr⟩ := getChapter_mem hg
      simp only [hg, decide_eq_true_eq]
      constructor
      · intro hcid
        have := chapterIdStr_inj hcid
        rw [← hr, this]
      · intro hrch
        have hcc : ch' = ch := List.inj_on_of_nodup_map h2 hm hch (by rw [hr, hrch])
        rw [hcc]
  rw [List.map_congr_left e1, sum_map_mul_right, ← countP_flatMap]
  have e4 : ∀ r ∈ d.parts.flatMap Part.chapters,
      (decide (r = ch.chapter) = true ↔ (r == ch.chapter) = true) := fun r _ => by simp
  rw [List.countP_congr e4]
  have e5 : (d.parts.flatMap Part.chapters).countP (fun r => r == ch.chapter) =
      (d.parts.flatMap Part.chapters).count ch.chapter := rfl
  rw [e5, h3 ch hch, Nat.one_mul]

theorem flatten_parent_resolves (d : CourseData) :
    ∀ it ∈ getFlattenedContent d, ∀ pid, it.parent = some pid →
      ∃ it' ∈ getFlattenedContent d, it'.id = pid ∧ it'.id ≠ it.id := by
  intro it hit pid hp
  have hroot : (⟨"root", d.courseTitle, .root, 0, some 0, none, none, none, none,
      none⟩ : FlatItem) ∈ getFlattenedContent d := List.mem_cons_self _ _
  rcases List.mem_cons.mp hit with rfl | hmem
  · cases hp
  · rcases List.mem_flatMap.mp hmem with ⟨p, hpmem, hseg⟩
    have hpartmem : partItem p ∈ getFlattenedContent d :=
      List.mem_cons_of_mem _ (List.mem_flatMap.mpr ⟨p, hpmem, List.mem_cons_self _ _⟩)
    rcases List.mem_cons.mp hseg with rfl | hinner
    · obtain rfl : pid = "root" := by
        have : some "root" = some pid := hp
        exact (Option.some.inj this).symm
      exact ⟨_, hroot, rfl, Ne.symm (partIdStr_ne_root p)⟩
    · rcases List.mem_flatMap.mp hinner with ⟨ch, hchmem, hchseg⟩
      have hchapmem : chapterItem p ch ∈ getFlattenedContent d :=
        List.mem_cons_of_mem _ (List.mem_flatMap.mpr ⟨p, hpmem,
          List.mem_cons_of_mem _ (List.mem_flatMap.mpr ⟨ch, hchmem,
            List.mem_cons_self _ _⟩)⟩)
      rcases List.mem_cons.mp hchseg with rfl | htk
      · obtain rfl : pid = partIdStr p := by
          have : some (partIdStr p) = some pid := hp
          exact (Option.some.inj this).symm
        exact ⟨partItem p, hpartmem, rfl, Ne.symm (chapterIdStr_ne_partIdStr ch p)⟩
      · obtain ⟨q, hq, rfl⟩ := List.mem_map.mp htk
        obtain rfl : pid = chapterIdStr ch := by
          have : some (chapterIdStr ch) = some pid := hp
          exact (Option.some.inj this).symm
        exact ⟨chapterItem p ch, hchapmem, rfl,
          Ne.symm (takeawayId_ne_chapterIdStr ch _)⟩

/-- C1: for every valid course document — every chapter id referenced by
exactly one Part, with the data-model invariants that part and chapter ids
are unique — `getFlattenedContent` returns exactly one root node, exactly
one node per Part, exactly one node per Chapter, and exactly
`min(5, key-takeaway-count)` takeaway nodes per Chapter (keyed by the
chapter's id string); and every non-root node's parent field equals the id
of another node of the same returned list. -/
theorem c1_flatten_shape (d : CourseData) (hv : ValidCourse d) :
    ((getFlattenedContent d).countP (fun it => it.type == FlatType.root) = 1) ∧
    ((getFlattenedContent d).countP (fun it => it.type == FlatType.part) =
      d.parts.length) ∧
    ((getFlattenedContent d).countP (fun it => it.type == FlatType.chapter) =
      d.chapters.length) ∧
    (∀ ch ∈ d.chapters,
      (getFlattenedContent d).countP
        (fun it => it.type == FlatType.takeaway &&
          it.parent == some (chapterIdStr ch)) = min 5 ch.keyTakeaways.length) ∧
    (∀ it ∈ getFlattenedContent d, ∀ pid, it.parent = some pid →
      ∃ it' ∈ getFlattenedContent d, it'.id = pid ∧ it'.id ≠ it.id) := by
  refine ⟨flatten_countP_root d, flatten_countP_part d, ?_, ?_, flatten_parent_resolves d⟩
  · rw [flatten_countP_chapter d, sum_chapters_length d hv]
  · intro ch hch
    rw [flatten_countP_takeaway d ch, takeaway_sum_valid d hv hch]

/-- Witness for C1 on the worked example document (which is valid). -/
theorem c1_flatten_shape_witness :
    ValidCourse exampleDoc ∧
    ((getFlattenedContent exampleDoc).countP (fun it => it.type == FlatType.chapter) =
      exampleDoc.chapters.length) :=
  ⟨⟨by decide, by decide, by decide⟩,
   (c1_flatten_shape exampleDoc ⟨by decide, by decide, by decide⟩).2.2.1⟩

end OBA
